import Mathlib

/-!
Verification of the holmen1/brainfuck repository.

Shallow embedding of:
* the tokenizer of `src/bfc/src/lexer.c` (opaque lexer struct with a cached
  current token, `lexer_peek` / `lexer_next`),
* the recursive-descent parser of `src/bfc/src/parser.c`
  (`parser_parse` / `parse_statement` / `parse_loop`), modelled with an
  explicit fuel argument since the C recursion has no structural measure,
* the bracket resolver `build_jump_table` and the execution engine
  `execute_program` of `src/src/bf.c`, together with the control flow of
  `main` that refuses to execute a program with unmatched brackets.

Machine integers: tape cells are unsigned 8-bit in the C code, modelled as
`Nat` with explicit `% 256`; the tape pointer is unchecked C pointer
arithmetic, modelled as an `Int` cursor into a total map `Int → Nat`.
-/

namespace Brainfuck

/-! ### Tokenizer (src/bfc/src/lexer.c) -/

/-- `TokenType` from `src/bfc/include/lexer.h`. -/
inductive TokenType where
  | TOKEN_RIGHT
  | TOKEN_LEFT
  | TOKEN_INC
  | TOKEN_DEC
  | TOKEN_OUTPUT
  | TOKEN_INPUT
  | TOKEN_LOOP_START
  | TOKEN_LOOP_END
  | TOKEN_EOF
deriving DecidableEq

/-- `Token` from `src/bfc/include/lexer.h`: a kind plus a source position. -/
structure Token where
  type : TokenType
  position : Nat
deriving DecidableEq

/-- The check in `lexer_next_token` for the eight command characters. -/
def isCommand (c : Char) : Bool :=
  c = '>' || c = '<' || c = '+' || c = '-' || c = '.' || c = ',' || c = '[' || c = ']'

/-- The `switch (ch)` in `lexer_next_token` converting a character to a token
kind.  The default arm is the C code's unreachable `return TOKEN_EOF`. -/
def charToken (c : Char) : TokenType :=
  if c = '>' then .TOKEN_RIGHT
  else if c = '<' then .TOKEN_LEFT
  else if c = '+' then .TOKEN_INC
  else if c = '-' then .TOKEN_DEC
  else if c = '.' then .TOKEN_OUTPUT
  else if c = ',' then .TOKEN_INPUT
  else if c = '[' then .TOKEN_LOOP_START
  else if c = ']' then .TOKEN_LOOP_END
  else .TOKEN_EOF

/-- `struct Lexer` from `src/bfc/src/lexer.c`: source buffer, scan position,
and the cached current token (`current_token` together with `token_valid`,
here an `Option`). -/
structure Lexer where
  source : List Char
  position : Nat
  cache : Option Token
deriving DecidableEq

/-- `lexer_create(source, length)`: position 0, no token cached. -/
def mkLexer (source : List Char) : Lexer :=
  { source := source, position := 0, cache := none }

/-- The skip loop of `lexer_next_token`: number of leading non-command
characters of a buffer suffix. -/
def seek : List Char → Nat
  | [] => 0
  | c :: cs => if isCommand c then 0 else seek cs + 1

/-- `lexer_next_token`: skip non-command characters from `pos`, then either
return the token for the command character found (advancing past it) or an
`TOKEN_EOF` token at the end of the buffer.  Returns the token and the new
value of `lexer->position`. -/
def nextTokenAt (src : List Char) (pos : Nat) : Token × Nat :=
  let p := pos + seek (src.drop pos)
  if h : p < src.length then
    (⟨charToken (src.get ⟨p, h⟩), p⟩, p + 1)
  else
    (⟨.TOKEN_EOF, p⟩, p)

/-- `lexer_peek`: return the cached token's kind, computing and caching a new
token first when none is valid.  Returns the kind and the updated lexer. -/
def lexerPeek (L : Lexer) : TokenType × Lexer :=
  match L.cache with
  | some t => (t.type, L)
  | none =>
    let r := nextTokenAt L.source L.position
    (r.1.type, { L with position := r.2, cache := some r.1 })

/-- `lexer_next`: invalidate the cached token. -/
def lexerNext (L : Lexer) : Lexer :=
  { L with cache := none }

/-- Kind returned by a `lexer_peek` call. -/
def peekT (L : Lexer) : TokenType := (lexerPeek L).1

/-- Lexer state after a `lexer_peek` call. -/
def peekL (L : Lexer) : Lexer := (lexerPeek L).2

/-- The remaining token stream of a lexer: cached token first (a cached
end-of-input token ends the stream), then one token per command character at
or after the scan position, then the terminal `TOKEN_EOF`.  This is the
sequence of kinds produced by repeating `lexer_peek`/`lexer_next` until
`TOKEN_EOF`, as `lexer_format_tokens` does. -/
def streamOf (L : Lexer) : List TokenType :=
  match L.cache with
  | some t =>
    if t.type = .TOKEN_EOF then [.TOKEN_EOF]
    else t.type :: (((L.source.drop L.position).filter isCommand).map charToken ++ [.TOKEN_EOF])
  | none => ((L.source.drop L.position).filter isCommand).map charToken ++ [.TOKEN_EOF]

/-- 1 when a non-end-of-input token is cached. -/
def cacheBit (L : Lexer) : Nat :=
  match L.cache with
  | none => 0
  | some t => if t.type = .TOKEN_EOF then 0 else 1

/-- Termination measure for loops driven by `lexer_peek`/`lexer_next`. -/
def lexMeasure (L : Lexer) : Nat :=
  2 * (L.source.length - L.position) + cacheBit L

/-! ### AST and parser (src/bfc/include/ast.h, src/bfc/src/parser.c) -/

/-- `ASTNode` from `src/bfc/include/ast.h`; the payloads of the variant
`union` become constructor arguments. -/
inductive ASTNode where
  | AST_SEQUENCE (children : List ASTNode)
  | AST_MOVE_PTR (offset : Int)
  | AST_MODIFY_CELL (delta : Int)
  | AST_OUTPUT
  | AST_INPUT
  | AST_LOOP (body : ASTNode)

/-- Result of a parsing function: a value, the C code's `NULL` return
(syntax error), or fuel exhaustion (an artifact of the embedding; the C
code just recurses). -/
inductive PRes (α : Type) where
  | ok (val : α)
  | fail
  | noFuel

/-- The run-accumulation loops of `parse_statement`
(`while (lexer_peek(lexer) == TOKEN_X) { lexer_next(lexer); ... }`):
count the consecutive tokens of kind `tt` and consume them. -/
def takeRunF (tt : TokenType) : Nat → Lexer → PRes (Nat × Lexer)
  | 0, _ => .noFuel
  | fuel + 1, L =>
    let r := lexerPeek L
    if r.1 = tt then
      match takeRunF tt fuel (lexerNext r.2) with
      | .ok (n, L') => .ok (n + 1, L')
      | .fail => .fail
      | .noFuel => .noFuel
    else
      .ok (0, r.2)

/-- Mode of the combined parser recursion: `stmt` is a `parse_statement`
call, `loopRest acc` is the statement-collecting loop inside `parse_loop`
with the body statements parsed so far. -/
inductive PCall where
  | stmt
  | loopRest (acc : List ASTNode)

/-- `parse_statement` and `parse_loop` as one fuel-indexed recursion.

`stmt` dispatches on the peeked kind exactly as the `switch` in
`parse_statement`: move/modify kinds fold a maximal run into one node
(`+n` for `>`, `-n` for `<`, `+n` for `+`, `-n` for `-`), output/input
consume one token, `TOKEN_LOOP_START` consumes the `[` and enters the loop
body, and `TOKEN_LOOP_END`/`TOKEN_EOF` are the `return NULL` arms.

`loopRest acc` is `parse_loop`'s `while` loop: it parses statements until
the next kind is `TOKEN_LOOP_END` (consume it and build the loop node) or
`TOKEN_EOF` (unmatched `[`, `return NULL`). -/
def parseGo : Nat → PCall → Lexer → PRes (ASTNode × Lexer)
  | 0, _, _ => .noFuel
  | fuel + 1, .stmt, L =>
    let r := lexerPeek L
    match r.1 with
    | .TOKEN_RIGHT =>
      match takeRunF .TOKEN_RIGHT (fuel + 1) r.2 with
      | .ok (n, L') => .ok (.AST_MOVE_PTR (n : Int), L')
      | .fail => .fail
      | .noFuel => .noFuel
    | .TOKEN_LEFT =>
      match takeRunF .TOKEN_LEFT (fuel + 1) r.2 with
      | .ok (n, L') => .ok (.AST_MOVE_PTR (-(n : Int)), L')
      | .fail => .fail
      | .noFuel => .noFuel
    | .TOKEN_INC =>
      match takeRunF .TOKEN_INC (fuel + 1) r.2 with
      | .ok (n, L') => .ok (.AST_MODIFY_CELL (n : Int), L')
      | .fail => .fail
      | .noFuel => .noFuel
    | .TOKEN_DEC =>
      match takeRunF .TOKEN_DEC (fuel + 1) r.2 with
      | .ok (n, L') => .ok (.AST_MODIFY_CELL (-(n : Int)), L')
      | .fail => .fail
      | .noFuel => .noFuel
    | .TOKEN_OUTPUT => .ok (.AST_OUTPUT, lexerNext r.2)
    | .TOKEN_INPUT => .ok (.AST_INPUT, lexerNext r.2)
    | .TOKEN_LOOP_START => parseGo fuel (.loopRest []) (lexerNext r.2)
    | .TOKEN_LOOP_END => .fail
    | .TOKEN_EOF => .fail
  | fuel + 1, .loopRest acc, L =>
    let r := lexerPeek L
    if r.1 = .TOKEN_LOOP_END then
      .ok (.AST_LOOP (.AST_SEQUENCE acc), lexerNext r.2)
    else if r.1 = .TOKEN_EOF then
      .fail
    else
      match parseGo fuel .stmt r.2 with
      | .ok (stmt, L') => parseGo fuel (.loopRest (acc ++ [stmt])) L'
      | .fail => .fail
      | .noFuel => .noFuel

/-- `parse_statement`. -/
def parseStatementF (fuel : Nat) (L : Lexer) : PRes (ASTNode × Lexer) :=
  parseGo fuel .stmt L

/-- The top-level statement loop of `parser_parse`, collecting children of
the root sequence until `TOKEN_EOF`. -/
def parseSeqF : Nat → Lexer → List ASTNode → PRes (ASTNode × Lexer)
  | 0, _, _ => .noFuel
  | fuel + 1, L, acc =>
    let r := lexerPeek L
    if r.1 = .TOKEN_EOF then
      .ok (.AST_SEQUENCE acc, r.2)
    else
      match parseGo fuel .stmt r.2 with
      | .ok (stmt, L') => parseSeqF fuel L' (acc ++ [stmt])
      | .fail => .fail
      | .noFuel => .noFuel

/-- `parser_parse`: parse statements into a root `AST_SEQUENCE` until
`TOKEN_EOF`. -/
def parserParseF (fuel : Nat) (L : Lexer) : PRes ASTNode :=
  match parseSeqF fuel L [] with
  | .ok (root, _) => .ok root
  | .fail => .fail
  | .noFuel => .noFuel

/-! ### Bracket resolver (build_jump_table in src/src/bf.c) -/

/-- The mutable state of `build_jump_table`'s scan: the stack of pending `[`
positions, the count of `]` without a matching `[`, and the (partial)
jump-table array. -/
structure BJState where
  stack : List Nat
  uclose : Nat
  jt : Nat → Option Nat

/-- Initial resolver state: empty stack, zero counter, nothing written. -/
def bjInit : BJState :=
  { stack := [], uclose := 0, jt := fun _ => none }

/-- One iteration of `build_jump_table`'s scan at index `i`: push on `[`;
on `]` pop and record the pair in both directions when the stack is
non-empty, otherwise count an unmatched close; ignore other characters. -/
def bjStep (i : Nat) (c : Char) (s : BJState) : BJState :=
  if c = '[' then
    { s with stack := i :: s.stack }
  else if c = ']' then
    match s.stack with
    | openPos :: rest =>
      { s with stack := rest,
               jt := fun j => if j = openPos then some i
                       else if j = i then some openPos else s.jt j }
    | [] => { s with uclose := s.uclose + 1 }
  else s

/-- The scan of `build_jump_table` over the first `n` characters. -/
def bjRun (cs : List Char) : Nat → BJState
  | 0 => bjInit
  | n + 1 => bjStep n (cs.getD n ' ') (bjRun cs n)

/-- Final state of `build_jump_table`'s scan over the whole program. -/
def buildJT (cs : List Char) : BJState :=
  bjRun cs cs.length

/-- The value `build_jump_table` returns:
`total_unmatched = unmatched_open + unmatched_close` where `unmatched_open`
is the final stack depth. -/
def unmatchedTotal (cs : List Char) : Nat :=
  (buildJT cs).stack.length + (buildJT cs).uclose

/-! ### Declarative bracket matching (from the spec's wording)

`Matches cs p q` is the spec-side notion "the `[` at position p has its
matching `]` at position q": the bracket depth, counted from `p`, stays
positive strictly between them and returns to zero exactly when the `]` at
`q` is included. -/

/-- Bracket value of a character: `[` opens, `]` closes. -/
def bval (c : Char) : Int :=
  if c = '[' then 1 else if c = ']' then -1 else 0

/-- Sum of bracket values of the first `k` characters. -/
def pref (cs : List Char) (k : Nat) : Int :=
  ((cs.take k).map bval).sum

/-- Net bracket count of the index interval `[a, b)`. -/
def net (cs : List Char) (a b : Nat) : Int :=
  pref cs b - pref cs a

/-- The `[` at position `p` has its matching `]` at position `q`. -/
def Matches (cs : List Char) (p q : Nat) : Prop :=
  p < cs.length ∧ q < cs.length ∧ cs.getD p ' ' = '[' ∧ cs.getD q ' ' = ']' ∧
  p < q ∧ (∀ r < q + 1, p < r → 0 < net cs p r) ∧ net cs p (q + 1) = 0

instance (cs : List Char) (p q : Nat) : Decidable (Matches cs p q) := by
  unfold Matches; exact inferInstance

/-- Positions `q < n` holding a `]` that no `[` matches. -/
def unmatchedCloseUpTo (cs : List Char) (n : Nat) : Nat :=
  (List.range n).countP (fun q => decide (cs.getD q ' ' = ']' ∧ ∀ p < q, ¬ Matches cs p q))

/-- Number of `]` in the program that no `[` matches. -/
def unmatchedCloseCount (cs : List Char) : Nat :=
  unmatchedCloseUpTo cs cs.length

/-- Number of `[` in the program with no matching `]`. -/
def unmatchedOpenCount (cs : List Char) : Nat :=
  (List.range cs.length).countP
    (fun p => decide (cs.getD p ' ' = '[' ∧ ∀ q < cs.length, ¬ Matches cs p q))

/-- Every bracket of the program is matched. -/
def AllMatched (cs : List Char) : Prop :=
  (∀ p < cs.length, cs.getD p ' ' = '[' → ∃ q, Matches cs p q) ∧
  (∀ q < cs.length, cs.getD q ' ' = ']' → ∃ p, Matches cs p q)

/-- Interval `[a, b]` has non-negative running bracket count from `a` and
net zero: the region between two pending `[` is of this shape. -/
def Balanced (cs : List Char) (a b : Nat) : Prop :=
  (∀ r, a ≤ r → r ≤ b → 0 ≤ net cs a r) ∧ net cs a b = 0

/-- Invariant relating the resolver stack to the scanned prefix: the region
strictly above the top pending `[` is balanced, and so is each region
strictly between consecutive pending `[`. -/
def GapsOK (cs : List Char) : List Nat → Nat → Prop
  | [], _ => True
  | p :: rest, n => Balanced cs (p + 1) n ∧ GapsOK cs rest p

/-- Invariant of `build_jump_table`'s scan after the first `n` characters:
the stack holds exactly the so-far-unmatched `[` positions in decreasing
order, the jump table holds exactly the so-far-matched pairs in both
directions, the close counter counts exactly the unmatched `]`, and the
regions between pending `[` are balanced. -/
def BJInv (cs : List Char) (n : Nat) (s : BJState) : Prop :=
  s.stack.Pairwise (fun a b => b < a) ∧
  (∀ p, p ∈ s.stack ↔ (p < n ∧ cs.getD p ' ' = '[' ∧ ∀ q < n, ¬ Matches cs p q)) ∧
  (∀ j m, s.jt j = some m ↔
    ((Matches cs j m ∧ m < n) ∨ (Matches cs m j ∧ j < n))) ∧
  s.uclose = unmatchedCloseUpTo cs n ∧
  GapsOK cs s.stack n

/-! ### Execution engine (execute_program in src/src/bf.c) -/

/-- State of `execute_program`'s loop: program counter, cell cursor
(`cell - memory` as unchecked pointer arithmetic), the tape, the remaining
standard input, and the emitted output bytes. -/
structure ExecState where
  pc : Nat
  cur : Int
  mem : Int → Nat
  inp : List Nat
  out : List Nat

/-- Pointwise tape update. -/
def setMem (m : Int → Nat) (i : Int) (v : Nat) : Int → Nat :=
  fun j => if j = i then v else m j

/-- One iteration of `execute_program`'s `for` loop: dispatch on
`program[pc]` and then `pc++`.  Cell writes are the C unsigned-char
wraparound, `% 256`.  On `,` past end of input the C `getchar()` returns
`EOF = -1`, stored in the unsigned cell as 255. -/
def execStep (prog : List Char) (jt : Nat → Option Nat) (s : ExecState) : ExecState :=
  if prog.getD s.pc ' ' = '>' then { s with pc := s.pc + 1, cur := s.cur + 1 }
  else if prog.getD s.pc ' ' = '<' then { s with pc := s.pc + 1, cur := s.cur - 1 }
  else if prog.getD s.pc ' ' = '+' then
    { s with pc := s.pc + 1, mem := setMem s.mem s.cur ((s.mem s.cur + 1) % 256) }
  else if prog.getD s.pc ' ' = '-' then
    { s with pc := s.pc + 1, mem := setMem s.mem s.cur ((s.mem s.cur + 255) % 256) }
  else if prog.getD s.pc ' ' = '.' then
    { s with pc := s.pc + 1, out := s.out ++ [s.mem s.cur] }
  else if prog.getD s.pc ' ' = ',' then
    match s.inp with
    | b :: rest => { s with pc := s.pc + 1, mem := setMem s.mem s.cur (b % 256), inp := rest }
    | [] => { s with pc := s.pc + 1, mem := setMem s.mem s.cur 255 }
  else if prog.getD s.pc ' ' = '[' then
    { s with pc := (if s.mem s.cur = 0 then (jt s.pc).getD s.pc else s.pc) + 1 }
  else if prog.getD s.pc ' ' = ']' then
    { s with pc := (if s.mem s.cur = 0 then s.pc else (jt s.pc).getD s.pc) + 1 }
  else { s with pc := s.pc + 1 }

/-- `execute_program`'s loop, running at most `fuel` iterations of
`for (pc = 0; pc < program_length; pc++)`. -/
def execRun (prog : List Char) (jt : Nat → Option Nat) : Nat → ExecState → ExecState
  | 0, s => s
  | fuel + 1, s =>
    if s.pc < prog.length then execRun prog jt fuel (execStep prog jt s) else s

/-- Fresh state of `main`: zero-initialized tape, cursor at cell 0, program
counter 0. -/
def initState (inp : List Nat) : ExecState :=
  { pc := 0, cur := 0, mem := fun _ => 0, inp := inp, out := [] }

/-- Outcome of `main` after the program buffer is read: either the non-zero
unmatched-bracket total (reported and returned without executing), or the
final interpreter state. -/
inductive MainResult where
  | bracketError (count : Nat)
  | exec (final : ExecState)

/-- The bracket-validation and execution sequence of `main` in
`src/src/bf.c`: build the jump table, stop when `unmatched` is non-zero,
otherwise run `execute_program` on a fresh tape. -/
def runMain (prog : List Char) (inp : List Nat) (fuel : Nat) : MainResult :=
  let s := buildJT prog
  let unmatched := s.stack.length + s.uclose
  if unmatched ≠ 0 then .bracketError unmatched
  else .exec (execRun prog s.jt fuel (initState inp))

/-- The cell-clearing idiom `"[-]"` from the spec's testable properties. -/
def clearProg : List Char := ['[', '-', ']']

/-- The increment/copy idiom `"+[>+<-]"` from the spec's testable
properties. -/
def incCopyProg : List Char := ['+', '[', '>', '+', '<', '-', ']']

/-! ### Observation vocabulary for the tokenizer claims -/

/-- An externally visible lexer operation. -/
inductive LexOp where
  | peekOp
  | nextOp

/-- Apply one lexer operation to the state. -/
def applyOp (L : Lexer) : LexOp → Lexer
  | .peekOp => peekL L
  | .nextOp => lexerNext L

/-- Apply a sequence of lexer operations. -/
def applyOps (ops : List LexOp) (L : Lexer) : Lexer :=
  ops.foldl applyOp L

/-- The scan has reached the end of the buffer without finding a command
character: no command character remains at or after the position, and any
cached token is the end-of-input token. -/
def AtEnd (L : Lexer) : Prop :=
  (L.source.drop L.position).filter isCommand = [] ∧
  ∀ t, L.cache = some t → t.type = .TOKEN_EOF

/-! ### Lexer lemmas -/

theorem charToken_ne_eof (c : Char) (h : isCommand c = true) :
    charToken c ≠ .TOKEN_EOF := by
  simp only [isCommand, Bool.or_eq_true, decide_eq_true_eq] at h
  rcases h with ((((((h | h) | h) | h) | h) | h) | h) | h <;> subst h <;> decide

theorem seek_filter_nil : ∀ l : List Char, l.filter isCommand = [] → seek l = l.length := by
  intro l
  induction l with
  | nil => intro _; rfl
  | cons a as ih =>
    intro h
    by_cases ha : isCommand a
    · simp [List.filter_cons, ha] at h
    · simp only [List.filter_cons, ha, if_false, Bool.false_eq_true] at h
      simp [seek, ha, ih h]

theorem seek_filter_cons : ∀ (l : List Char) (c : Char) (rest : List Char),
    l.filter isCommand = c :: rest →
    seek l < l.length ∧ l.getD (seek l) ' ' = c ∧ isCommand c = true ∧
    (l.drop (seek l + 1)).filter isCommand = rest := by
  intro l
  induction l with
  | nil => intro c rest h; simp at h
  | cons a as ih =>
    intro c rest h
    by_cases ha : isCommand a
    · rw [List.filter_cons_of_pos ha] at h
      injection h with h1 h2
      subst h1
      refine ⟨by simp [seek, ha], by simp [seek, ha], ha, ?_⟩
      simp [seek, ha, h2]
    · rw [List.filter_cons_of_neg (by simpa using ha)] at h
      obtain ⟨h1, h2, h3, h4⟩ := ih c rest h
      refine ⟨?_, ?_, h3, ?_⟩
      · simpa [seek, ha] using Nat.succ_lt_succ h1
      · simpa [seek, ha] using h2
      · simpa [seek, ha] using h4

theorem peek_cache_some (L : Lexer) (t : Token) (h : L.cache = some t) :
    peekT L = t.type ∧ peekL L = L := by
  constructor <;> simp [peekT, peekL, lexerPeek, h]

theorem peek_none_nil (L : Lexer) (hc : L.cache = none)
    (hf : (L.source.drop L.position).filter isCommand = []) :
    peekT L = .TOKEN_EOF ∧
    peekL L = { L with
        position := L.position + seek (L.source.drop L.position),
        cache := some ⟨.TOKEN_EOF, L.position + seek (L.source.drop L.position)⟩ } := by
  have hs := seek_filter_nil _ hf
  have hlen : (L.source.drop L.position).length = L.source.length - L.position :=
    List.length_drop ..
  have hnot : ¬ (L.position + seek (L.source.drop L.position) < L.source.length) := by
    rw [hs, hlen]; omega
  constructor <;> simp [peekT, peekL, lexerPeek, hc, nextTokenAt, hnot]

theorem peek_none_cons (L : Lexer) (hc : L.cache = none) (c : Char) (rest : List Char)
    (hf : (L.source.drop L.position).filter isCommand = c :: rest) :
    peekT L = charToken c ∧
    peekL L = { L with
        position := L.position + seek (L.source.drop L.position) + 1,
        cache := some ⟨charToken c, L.position + seek (L.source.drop L.position)⟩ } ∧
    (L.source.drop (L.position + seek (L.source.drop L.position) + 1)).filter isCommand
      = rest ∧
    isCommand c = true := by
  obtain ⟨h1, h2, h3, h4⟩ := seek_filter_cons _ c rest hf
  have hlen : (L.source.drop L.position).length = L.source.length - L.position :=
    List.length_drop ..
  have hlt : L.position + seek (L.source.drop L.position) < L.source.length := by
    rw [hlen] at h1; omega
  have hd : (L.source.drop L.position)[seek (L.source.drop L.position)]? = some c := by
    rw [List.getElem?_eq_getElem h1]
    rw [List.getD_eq_getElem?_getD, List.getElem?_eq_getElem h1, Option.getD_some] at h2
    exact congrArg some h2
  have hsome : L.source[L.position + seek (L.source.drop L.position)]? = some c := by
    rw [← List.getElem?_drop]; exact hd
  have hget : L.source[L.position + seek (L.source.drop L.position)] = c := by
    have := List.getElem?_eq_getElem hlt
    rw [hsome] at this
    injection this with h'
    exact h'.symm
  refine ⟨?_, ?_, ?_, h3⟩
  · simp [peekT, lexerPeek, hc, nextTokenAt, hlt, List.get_eq_getElem, hget]
  · simp [peekL, lexerPeek, hc, nextTokenAt, hlt, List.get_eq_getElem, hget]
  · rw [Nat.add_assoc, ← List.drop_drop]
    exact h4

theorem streamOf_cons (L : Lexer) : streamOf L = peekT L :: (streamOf L).tail := by
  cases hc : L.cache with
  | some t =>
    by_cases ht : t.type = .TOKEN_EOF
    · simp [streamOf, hc, ht, (peek_cache_some L t hc).1]
    · simp [streamOf, hc, ht, (peek_cache_some L t hc).1]
  | none =>
    cases hf : (L.source.drop L.position).filter isCommand with
    | nil => simp [streamOf, hc, hf, (peek_none_nil L hc hf).1]
    | cons c rest => simp [streamOf, hc, hf, (peek_none_cons L hc c rest hf).1]

theorem streamOf_peekL (L : Lexer) : streamOf (peekL L) = streamOf L := by
  cases hc : L.cache with
  | some t => rw [(peek_cache_some L t hc).2]
  | none =>
    cases hf : (L.source.drop L.position).filter isCommand with
    | nil =>
      obtain ⟨-, h2⟩ := peek_none_nil L hc hf
      rw [h2]
      simp [streamOf, hc, hf]
    | cons c rest =>
      obtain ⟨-, h2, h3, h4⟩ := peek_none_cons L hc c rest hf
      rw [h2]
      simp [streamOf, hc, hf, charToken_ne_eof c h4, h3]

theorem streamOf_next_peekL (L : Lexer) (h : peekT L ≠ .TOKEN_EOF) :
    streamOf (lexerNext (peekL L)) = (streamOf L).tail := by
  cases hc : L.cache with
  | some t =>
    obtain ⟨h1, h2⟩ := peek_cache_some L t hc
    have ht : t.type ≠ .TOKEN_EOF := by rw [h1] at h; exact h
    rw [h2]
    simp [streamOf, lexerNext, hc, ht]
  | none =>
    cases hf : (L.source.drop L.position).filter isCommand with
    | nil => exact absurd (peek_none_nil L hc hf).1 h
    | cons c rest =>
      obtain ⟨-, h2, h3, h4⟩ := peek_none_cons L hc c rest hf
      rw [h2]
      simp [streamOf, lexerNext, hc, hf, h3]

theorem lexMeasure_peekL_le (L : Lexer) : lexMeasure (peekL L) ≤ lexMeasure L := by
  cases hc : L.cache with
  | some t => rw [(peek_cache_some L t hc).2]
  | none =>
    cases hf : (L.source.drop L.position).filter isCommand with
    | nil =>
      rw [(peek_none_nil L hc hf).2]
      simp [lexMeasure, cacheBit, hc]
      omega
    | cons c rest =>
      obtain ⟨-, h2, -, h4⟩ := peek_none_cons L hc c rest hf
      have h1 := (seek_filter_cons _ c rest hf).1
      have hlen : (L.source.drop L.position).length = L.source.length - L.position :=
        List.length_drop ..
      rw [h2]
      simp [lexMeasure, cacheBit, hc, charToken_ne_eof c h4]
      rw [hlen] at h1
      omega

theorem lexMeasure_next_le (L : Lexer) : lexMeasure (lexerNext L) ≤ lexMeasure L := by
  cases hc : L.cache <;> simp [lexMeasure, lexerNext, cacheBit, hc]

theorem peekT_peekL (L : Lexer) : peekT (peekL L) = peekT L := by
  cases hc : L.cache with
  | some t => rw [(peek_cache_some L t hc).2]
  | none =>
    cases hf : (L.source.drop L.position).filter isCommand with
    | nil =>
      obtain ⟨h1, h2⟩ := peek_none_nil L hc hf
      rw [h2, h1]
      simp [peekT, lexerPeek]
    | cons c rest =>
      obtain ⟨h1, h2, -, -⟩ := peek_none_cons L hc c rest hf
      rw [h2, h1]
      simp [peekT, lexerPeek]

theorem lexMeasure_consume_lt (L : Lexer) (h : peekT L ≠ .TOKEN_EOF) :
    lexMeasure (lexerNext (peekL L)) < lexMeasure L := by
  cases hc : L.cache with
  | some t =>
    obtain ⟨h1, h2⟩ := peek_cache_some L t hc
    have ht : t.type ≠ .TOKEN_EOF := by rw [h1] at h; exact h
    rw [h2]
    simp [lexMeasure, lexerNext, cacheBit, hc, ht]
  | none =>
    cases hf : (L.source.drop L.position).filter isCommand with
    | nil => exact absurd (peek_none_nil L hc hf).1 h
    | cons c rest =>
      obtain ⟨-, h2, -, -⟩ := peek_none_cons L hc c rest hf
      have h1 := (seek_filter_cons _ c rest hf).1
      have hlen : (L.source.drop L.position).length = L.source.length - L.position :=
        List.length_drop ..
      rw [h2]
      simp [lexMeasure, lexerNext, cacheBit, hc]
      rw [hlen] at h1
      omega

/-! ### Parser fuel sufficiency (termination of parser_parse) -/

theorem peekT_def (L : Lexer) : (lexerPeek L).1 = peekT L := rfl

theorem peekL_def (L : Lexer) : (lexerPeek L).2 = peekL L := rfl

theorem takeRunF_fueled (tt : TokenType) (htt : tt ≠ .TOKEN_EOF) :
    ∀ (m : Nat) (L : Lexer) (fuel : Nat), lexMeasure L ≤ m → lexMeasure L + 1 ≤ fuel →
      ∃ n L', takeRunF tt fuel L = .ok (n, L') ∧ lexMeasure L' ≤ lexMeasure L ∧
        (peekT L = tt → lexMeasure L' < lexMeasure L) := by
  intro m
  induction m with
  | zero =>
    intro L fuel hm hf
    cases fuel with
    | zero => omega
    | succ f =>
      have hne : peekT L ≠ tt := by
        intro hp
        have := lexMeasure_consume_lt L (by rw [hp]; exact htt)
        omega
      refine ⟨0, peekL L, ?_, lexMeasure_peekL_le L, fun hp => absurd hp hne⟩
      simp only [takeRunF, peekT_def, peekL_def]
      rw [if_neg hne]
  | succ m ih =>
    intro L fuel hm hf
    cases fuel with
    | zero => omega
    | succ f =>
      by_cases hp : peekT L = tt
      · have hlt := lexMeasure_consume_lt L (by rw [hp]; exact htt)
        obtain ⟨n, L', heq, hle, -⟩ :=
          ih (lexerNext (peekL L)) f (by omega) (by omega)
        refine ⟨n + 1, L', ?_, by omega, fun _ => by omega⟩
        simp only [takeRunF, peekT_def, peekL_def]
        rw [if_pos hp, heq]
      · refine ⟨0, peekL L, ?_, lexMeasure_peekL_le L, fun h => absurd h hp⟩
        simp only [takeRunF, peekT_def, peekL_def]
        rw [if_neg hp]

theorem parseGo_stmt_run_eq (f : Nat) (L : Lexer) (tt : TokenType) (mk : Nat → ASTNode)
    (hcase : (tt = .TOKEN_RIGHT ∧ mk = fun n => .AST_MOVE_PTR (n : Int)) ∨
             (tt = .TOKEN_LEFT ∧ mk = fun n => .AST_MOVE_PTR (-(n : Int))) ∨
             (tt = .TOKEN_INC ∧ mk = fun n => .AST_MODIFY_CELL (n : Int)) ∨
             (tt = .TOKEN_DEC ∧ mk = fun n => .AST_MODIFY_CELL (-(n : Int))))
    (hpt : peekT L = tt) (n : Nat) (L' : Lexer)
    (heq : takeRunF tt (f + 1) (peekL L) = .ok (n, L')) :
    parseGo (f + 1) .stmt L = .ok (mk n, L') := by
  rcases hcase with ⟨h1, h2⟩ | ⟨h1, h2⟩ | ⟨h1, h2⟩ | ⟨h1, h2⟩ <;> subst h1 <;> subst h2 <;>
    (simp only [parseGo, peekT_def, peekL_def]; rw [hpt, heq])

theorem parseGo_stmt_single_eq (f : Nat) (L : Lexer) :
    (peekT L = .TOKEN_OUTPUT → parseGo (f + 1) .stmt L = .ok (.AST_OUTPUT, lexerNext (peekL L))) ∧
    (peekT L = .TOKEN_INPUT → parseGo (f + 1) .stmt L = .ok (.AST_INPUT, lexerNext (peekL L))) ∧
    (peekT L = .TOKEN_LOOP_START →
      parseGo (f + 1) .stmt L = parseGo f (.loopRest []) (lexerNext (peekL L))) ∧
    (peekT L = .TOKEN_LOOP_END → parseGo (f + 1) .stmt L = .fail) ∧
    (peekT L = .TOKEN_EOF → parseGo (f + 1) .stmt L = .fail) := by
  refine ⟨fun h => ?_, fun h => ?_, fun h => ?_, fun h => ?_, fun h => ?_⟩ <;>
    (simp only [parseGo, peekT_def, peekL_def]; rw [h])

theorem parseGo_rest_end_eq (f : Nat) (L : Lexer) (acc : List ASTNode)
    (h : peekT L = .TOKEN_LOOP_END) :
    parseGo (f + 1) (.loopRest acc) L
      = .ok (.AST_LOOP (.AST_SEQUENCE acc), lexerNext (peekL L)) := by
  simp only [parseGo, peekT_def, peekL_def]
  rw [if_pos h]

theorem parseGo_rest_eof_eq (f : Nat) (L : Lexer) (acc : List ASTNode)
    (hend : peekT L ≠ .TOKEN_LOOP_END) (heof : peekT L = .TOKEN_EOF) :
    parseGo (f + 1) (.loopRest acc) L = .fail := by
  simp only [parseGo, peekT_def, peekL_def]
  rw [if_neg hend, if_pos heof]

theorem parseGo_rest_step_eq (f : Nat) (L : Lexer) (acc : List ASTNode)
    (hend : peekT L ≠ .TOKEN_LOOP_END) (heof : peekT L ≠ .TOKEN_EOF) :
    parseGo (f + 1) (.loopRest acc) L
      = match parseGo f .stmt (peekL L) with
        | .ok (stmt, L') => parseGo f (.loopRest (acc ++ [stmt])) L'
        | .fail => .fail
        | .noFuel => .noFuel := by
  simp only [parseGo, peekT_def, peekL_def]
  rw [if_neg hend, if_neg heof]

theorem parseGo_fueled : ∀ (m : Nat),
    (∀ (L : Lexer) (fuel : Nat), lexMeasure L ≤ m → 2 * lexMeasure L + 1 ≤ fuel →
      parseGo fuel .stmt L ≠ .noFuel ∧
      ∀ a L', parseGo fuel .stmt L = .ok (a, L') → lexMeasure L' < lexMeasure L) ∧
    (∀ (L : Lexer) (acc : List ASTNode) (fuel : Nat),
      lexMeasure L ≤ m → 2 * lexMeasure L + 2 ≤ fuel →
      parseGo fuel (.loopRest acc) L ≠ .noFuel ∧
      ∀ a L', parseGo fuel (.loopRest acc) L = .ok (a, L') → lexMeasure L' < lexMeasure L) := by
  have main : ∀ (m : Nat),
      (∀ k ≤ m,
        (∀ (L : Lexer) (fuel : Nat), lexMeasure L ≤ k → 2 * lexMeasure L + 1 ≤ fuel →
          parseGo fuel .stmt L ≠ .noFuel ∧
          ∀ a L', parseGo fuel .stmt L = .ok (a, L') → lexMeasure L' < lexMeasure L) ∧
        (∀ (L : Lexer) (acc : List ASTNode) (fuel : Nat),
          lexMeasure L ≤ k → 2 * lexMeasure L + 2 ≤ fuel →
          parseGo fuel (.loopRest acc) L ≠ .noFuel ∧
          ∀ a L', parseGo fuel (.loopRest acc) L = .ok (a, L') →
            lexMeasure L' < lexMeasure L)) := by
    intro m
    induction m with
    | zero =>
      intro k hk
      interval_cases k
      constructor
      · intro L fuel hm hf
        cases fuel with
        | zero => omega
        | succ f =>
          cases hpt : peekT L
          case TOKEN_RIGHT | TOKEN_LEFT | TOKEN_INC | TOKEN_DEC =>
            exfalso
            have := lexMeasure_consume_lt L (by rw [hpt]; decide)
            omega
          case TOKEN_OUTPUT | TOKEN_INPUT | TOKEN_LOOP_START =>
            exfalso
            have := lexMeasure_consume_lt L (by rw [hpt]; decide)
            omega
          case TOKEN_LOOP_END =>
            rw [(parseGo_stmt_single_eq f L).2.2.2.1 hpt]
            exact ⟨nofun, fun a L'' h => nomatch h⟩
          case TOKEN_EOF =>
            rw [(parseGo_stmt_single_eq f L).2.2.2.2 hpt]
            exact ⟨nofun, fun a L'' h => nomatch h⟩
      · intro L acc fuel hm hf
        cases fuel with
        | zero => omega
        | succ f =>
          by_cases hend : peekT L = .TOKEN_LOOP_END
          · exfalso
            have := lexMeasure_consume_lt L (by rw [hend]; decide)
            omega
          · by_cases heof : peekT L = .TOKEN_EOF
            · rw [parseGo_rest_eof_eq f L acc hend heof]
              exact ⟨nofun, fun a L'' h => nomatch h⟩
            · exfalso
              have := lexMeasure_consume_lt L heof
              omega
    | succ m ih =>
      intro k hk
      rcases Nat.lt_or_ge k (m + 1) with hlt | hge
      · exact ih k (by omega)
      have hkeq : k = m + 1 := by omega
      subst hkeq
      have hstmt : ∀ (L : Lexer) (fuel : Nat),
          lexMeasure L ≤ m + 1 → 2 * lexMeasure L + 1 ≤ fuel →
          parseGo fuel .stmt L ≠ .noFuel ∧
          ∀ a L', parseGo fuel .stmt L = .ok (a, L') → lexMeasure L' < lexMeasure L := by
        intro L fuel hm hf
        cases fuel with
        | zero => omega
        | succ f =>
          have hL0 := lexMeasure_peekL_le L
          cases hpt : peekT L
          case TOKEN_RIGHT | TOKEN_LEFT | TOKEN_INC | TOKEN_DEC =>
            first
            | (obtain ⟨n, L', heq, hle, hstr⟩ :=
                takeRunF_fueled .TOKEN_RIGHT (by decide) (m + 1) (peekL L) (f + 1)
                  (le_trans hL0 hm) (by omega)
               rw [parseGo_stmt_run_eq f L .TOKEN_RIGHT _ (Or.inl ⟨rfl, rfl⟩) hpt n L' heq]
               have hdec := hstr (by rw [peekT_peekL, hpt])
               exact ⟨nofun, fun a L'' h => by cases h; omega⟩)
            | (obtain ⟨n, L', heq, hle, hstr⟩ :=
                takeRunF_fueled .TOKEN_LEFT (by decide) (m + 1) (peekL L) (f + 1)
                  (le_trans hL0 hm) (by omega)
               rw [parseGo_stmt_run_eq f L .TOKEN_LEFT _ (Or.inr (Or.inl ⟨rfl, rfl⟩)) hpt n L' heq]
               have hdec := hstr (by rw [peekT_peekL, hpt])
               exact ⟨nofun, fun a L'' h => by cases h; omega⟩)
            | (obtain ⟨n, L', heq, hle, hstr⟩ :=
                takeRunF_fueled .TOKEN_INC (by decide) (m + 1) (peekL L) (f + 1)
                  (le_trans hL0 hm) (by omega)
               rw [parseGo_stmt_run_eq f L .TOKEN_INC _ (Or.inr (Or.inr (Or.inl ⟨rfl, rfl⟩)))
                 hpt n L' heq]
               have hdec := hstr (by rw [peekT_peekL, hpt])
               exact ⟨nofun, fun a L'' h => by cases h; omega⟩)
            | (obtain ⟨n, L', heq, hle, hstr⟩ :=
                takeRunF_fueled .TOKEN_DEC (by decide) (m + 1) (peekL L) (f + 1)
                  (le_trans hL0 hm) (by omega)
               rw [parseGo_stmt_run_eq f L .TOKEN_DEC _ (Or.inr (Or.inr (Or.inr ⟨rfl, rfl⟩)))
                 hpt n L' heq]
               have hdec := hstr (by rw [peekT_peekL, hpt])
               exact ⟨nofun, fun a L'' h => by cases h; omega⟩)
          case TOKEN_OUTPUT =>
            rw [(parseGo_stmt_single_eq f L).1 hpt]
            have hdec := lexMeasure_consume_lt L (by rw [hpt]; decide)
            exact ⟨nofun, fun a L'' h => by cases h; omega⟩
          case TOKEN_INPUT =>
            rw [(parseGo_stmt_single_eq f L).2.1 hpt]
            have hdec := lexMeasure_consume_lt L (by rw [hpt]; decide)
            exact ⟨nofun, fun a L'' h => by cases h; omega⟩
          case TOKEN_LOOP_START =>
            rw [(parseGo_stmt_single_eq f L).2.2.1 hpt]
            have hdec := lexMeasure_consume_lt L (by rw [hpt]; decide)
            obtain ⟨hnf, hpost⟩ :=
              (ih m le_rfl).2 (lexerNext (peekL L)) [] f (by omega) (by omega)
            exact ⟨hnf, fun a L'' h => by have := hpost a L'' h; omega⟩
          case TOKEN_LOOP_END =>
            rw [(parseGo_stmt_single_eq f L).2.2.2.1 hpt]
            exact ⟨nofun, fun a L'' h => nomatch h⟩
          case TOKEN_EOF =>
            rw [(parseGo_stmt_single_eq f L).2.2.2.2 hpt]
            exact ⟨nofun, fun a L'' h => nomatch h⟩
      refine ⟨hstmt, ?_⟩
      intro L acc fuel hm hf
      cases fuel with
      | zero => omega
      | succ f =>
        have hL0 := lexMeasure_peekL_le L
        by_cases hend : peekT L = .TOKEN_LOOP_END
        · rw [parseGo_rest_end_eq f L acc hend]
          have hdec := lexMeasure_consume_lt L (by rw [hend]; decide)
          exact ⟨nofun, fun a L'' h => by cases h; omega⟩
        · by_cases heof : peekT L = .TOKEN_EOF
          · rw [parseGo_rest_eof_eq f L acc hend heof]
            exact ⟨nofun, fun a L'' h => nomatch h⟩
          · rw [parseGo_rest_step_eq f L acc hend heof]
            obtain ⟨hnf, hpost⟩ := hstmt (peekL L) f (le_trans hL0 hm) (by omega)
            cases hres : parseGo f .stmt (peekL L) with
            | ok val =>
              obtain ⟨stmt, L''⟩ := val
              have hlt : lexMeasure L'' < lexMeasure L :=
                lt_of_lt_of_le (hpost stmt L'' hres) hL0
              obtain ⟨hnf2, hpost2⟩ :=
                (ih m le_rfl).2 L'' (acc ++ [stmt]) f (by omega) (by omega)
              exact ⟨hnf2, fun a L' h => by have := hpost2 a L' h; omega⟩
            | fail => exact ⟨nofun, fun a L' h => nomatch h⟩
            | noFuel => exact absurd hres hnf
  exact fun m => main m m le_rfl

theorem parseGo_stmt_total (L : Lexer) (fuel : Nat) (hf : 2 * lexMeasure L + 1 ≤ fuel) :
    parseGo fuel .stmt L ≠ .noFuel ∧
    ∀ a L', parseGo fuel .stmt L = .ok (a, L') → lexMeasure L' < lexMeasure L :=
  (parseGo_fueled (lexMeasure L)).1 L fuel le_rfl hf

theorem parseSeqF_total : ∀ (m : Nat) (L : Lexer) (acc : List ASTNode) (fuel : Nat),
    lexMeasure L ≤ m → 2 * lexMeasure L + 2 ≤ fuel → parseSeqF fuel L acc ≠ .noFuel := by
  intro m
  induction m with
  | zero =>
    intro L acc fuel hm hf
    cases fuel with
    | zero => omega
    | succ f =>
      simp only [parseSeqF, peekT_def, peekL_def]
      by_cases heof : peekT L = .TOKEN_EOF
      · rw [if_pos heof]
        exact fun h => nomatch h
      · exfalso
        have := lexMeasure_consume_lt L heof
        omega
  | succ m ih =>
    intro L acc fuel hm hf
    cases fuel with
    | zero => omega
    | succ f =>
      simp only [parseSeqF, peekT_def, peekL_def]
      by_cases heof : peekT L = .TOKEN_EOF
      · rw [if_pos heof]
        exact fun h => nomatch h
      · rw [if_neg heof]
        have hL0 := lexMeasure_peekL_le L
        obtain ⟨hnf, hpost⟩ := parseGo_stmt_total (peekL L) f (by omega)
        cases hres : parseGo f .stmt (peekL L) with
        | ok val =>
          obtain ⟨stmt, L''⟩ := val
          have hlt : lexMeasure L'' < lexMeasure L :=
            lt_of_lt_of_le (hpost stmt L'' hres) hL0
          exact ih L'' (acc ++ [stmt]) f (by omega) (by omega)
        | fail => exact fun h => nomatch h
        | noFuel => exact absurd hres hnf

theorem parserParseF_total (L : Lexer) (fuel : Nat)
    (hf : 2 * lexMeasure L + 2 ≤ fuel) : parserParseF fuel L ≠ .noFuel := by
  unfold parserParseF
  cases hres : parseSeqF fuel L [] with
  | ok val => intro h; cases h
  | fail => intro h; cases h
  | noFuel => exact absurd hres (parseSeqF_total (lexMeasure L) L [] fuel le_rfl hf)

/-! ### Parser behaviour on token runs -/

theorem peekT_of_stream (L : Lexer) (t : TokenType) (ts : List TokenType)
    (h : streamOf L = t :: ts) : peekT L = t := by
  have hh := streamOf_cons L
  rw [h] at hh
  injection hh with h1 _
  exact h1.symm

theorem takeRunF_stream (tt : TokenType) (htt : tt ≠ .TOKEN_EOF) :
    ∀ (n : Nat) (L : Lexer) (t : TokenType) (ts : List TokenType) (fuel : Nat),
      streamOf L = List.replicate n tt ++ t :: ts → t ≠ tt → n + 1 ≤ fuel →
      ∃ L', takeRunF tt fuel L = .ok (n, L') ∧ streamOf L' = t :: ts := by
  intro n
  induction n with
  | zero =>
    intro L t ts fuel h ht hf
    cases fuel with
    | zero => omega
    | succ f =>
      rw [List.replicate_zero, List.nil_append] at h
      have hp : peekT L = t := peekT_of_stream L t ts h
      refine ⟨peekL L, ?_, by rw [streamOf_peekL]; exact h⟩
      simp only [takeRunF, peekT_def, peekL_def]
      rw [hp, if_neg ht]
  | succ n ihn =>
    intro L t ts fuel h ht hf
    cases fuel with
    | zero => omega
    | succ f =>
      rw [List.replicate_succ, List.cons_append] at h
      have hp : peekT L = tt := peekT_of_stream L tt _ h
      have h2 : streamOf (lexerNext (peekL L)) = List.replicate n tt ++ t :: ts := by
        rw [streamOf_next_peekL L (by rw [hp]; exact htt), h, List.tail_cons]
      obtain ⟨L', heq, hs⟩ := ihn (lexerNext (peekL L)) t ts f h2 ht (by omega)
      refine ⟨L', ?_, hs⟩
      simp only [takeRunF, peekT_def, peekL_def]
      rw [if_pos hp, heq]

theorem parseGo_run_of_stream (tt : TokenType) (htt : tt ≠ .TOKEN_EOF) (mk : Nat → ASTNode)
    (hcase : (tt = .TOKEN_RIGHT ∧ mk = fun n => .AST_MOVE_PTR (n : Int)) ∨
             (tt = .TOKEN_LEFT ∧ mk = fun n => .AST_MOVE_PTR (-(n : Int))) ∨
             (tt = .TOKEN_INC ∧ mk = fun n => .AST_MODIFY_CELL (n : Int)) ∨
             (tt = .TOKEN_DEC ∧ mk = fun n => .AST_MODIFY_CELL (-(n : Int))))
    (L : Lexer) (n : Nat) (t : TokenType) (ts : List TokenType) (fuel : Nat)
    (h : streamOf L = List.replicate n tt ++ t :: ts) (ht : t ≠ tt)
    (hn : 1 ≤ n) (hf : n + 2 ≤ fuel) :
    ∃ L', parseGo fuel .stmt L = .ok (mk n, L') ∧ streamOf L' = t :: ts := by
  cases fuel with
  | zero => omega
  | succ f =>
    have hp : peekT L = tt := by
      cases n with
      | zero => omega
      | succ k =>
        rw [List.replicate_succ, List.cons_append] at h
        exact peekT_of_stream L tt _ h
    obtain ⟨L', heq, hs⟩ :=
      takeRunF_stream tt htt n (peekL L) t ts (f + 1)
        (by rw [streamOf_peekL]; exact h) ht (by omega)
    exact ⟨L', parseGo_stmt_run_eq f L tt mk hcase hp n L' heq, hs⟩

theorem streamOf_mkLexer (src : List Char) :
    streamOf (mkLexer src) = (src.filter isCommand).map charToken ++ [.TOKEN_EOF] := by
  simp [streamOf, mkLexer]

/-! ### Execution engine lemmas -/

theorem execRun_stall (prog : List Char) (jt : Nat → Option Nat) :
    ∀ (fuel : Nat) (s : ExecState), ¬ s.pc < prog.length → execRun prog jt fuel s = s := by
  intro fuel
  induction fuel with
  | zero => intro s _; rfl
  | succ f ih => intro s h; simp [execRun, h]

theorem execRun_add (prog : List Char) (jt : Nat → Option Nat) :
    ∀ (a b : Nat) (s : ExecState),
      execRun prog jt (a + b) s = execRun prog jt b (execRun prog jt a s) := by
  intro a
  induction a with
  | zero => intro b s; rw [Nat.zero_add]; rfl
  | succ a iha =>
    intro b s
    rw [show a + 1 + b = (a + b) + 1 by omega]
    by_cases h : s.pc < prog.length
    · rw [show execRun prog jt ((a + b) + 1) s
          = execRun prog jt (a + b) (execStep prog jt s) by simp [execRun, h]]
      rw [show execRun prog jt (a + 1) s
          = execRun prog jt a (execStep prog jt s) by simp [execRun, h]]
      exact iha b (execStep prog jt s)
    · rw [execRun_stall prog jt ((a + b) + 1) s h, execRun_stall prog jt (a + 1) s h,
        execRun_stall prog jt b s h]

theorem execRun_step_of_lt (prog : List Char) (jt : Nat → Option Nat)
    (fuel : Nat) (s : ExecState) (h : s.pc < prog.length) :
    execRun prog jt (fuel + 1) s = execRun prog jt fuel (execStep prog jt s) := by
  simp [execRun, h]

/-! ### Prefix sums, bracket matching, and the resolver invariant -/

theorem pref_succ (cs : List Char) (k : Nat) :
    pref cs (k + 1) = pref cs k + bval (cs.getD k ' ') := by
  by_cases h : k < cs.length
  · rw [pref, pref, List.take_succ, List.map_append, List.sum_append,
      List.getElem?_eq_getElem h]
    rw [List.getD_eq_getElem?_getD, List.getElem?_eq_getElem h, Option.getD_some]
    simp
  · rw [pref, pref, List.take_of_length_le (by omega), List.take_of_length_le (by omega),
      List.getD_eq_getElem?_getD, List.getElem?_eq_none (by omega)]
    simp [bval]

theorem net_trans (cs : List Char) (a b c : Nat) :
    net cs a b + net cs b c = net cs a c := by
  unfold net; ring

theorem net_succ (cs : List Char) (a k : Nat) :
    net cs a (k + 1) = net cs a k + bval (cs.getD k ' ') := by
  unfold net; rw [pref_succ]; ring

theorem net_self (cs : List Char) (a : Nat) : net cs a a = 0 := by
  unfold net; ring

theorem matches_right_unique (cs : List Char) (p q q' : Nat)
    (h : Matches cs p q) (h' : Matches cs p q') : q = q' := by
  obtain ⟨-, -, -, -, hpq, hpos, hnet⟩ := h
  obtain ⟨-, -, -, -, hpq', hpos', hnet'⟩ := h'
  by_contra hne
  rcases Nat.lt_or_ge q q' with hlt | hge
  · have := hpos' (q + 1) (by omega) (by omega)
    omega
  · have := hpos (q' + 1) (by omega) (by omega)
    omega

theorem matches_left_unique (cs : List Char) (p p' q : Nat)
    (h : Matches cs p q) (h' : Matches cs p' q) : p = p' := by
  obtain ⟨-, -, -, -, hpq, hpos, hnet⟩ := h
  obtain ⟨-, -, -, -, hpq', hpos', hnet'⟩ := h'
  by_contra hne
  rcases Nat.lt_or_ge p p' with hlt | hge
  · have hsplit : net cs p p' + net cs p' (q + 1) = net cs p (q + 1) := net_trans ..
    have := hpos p' (by omega) hlt
    omega
  · have hlt : p' < p := by omega
    have hsplit : net cs p' p + net cs p (q + 1) = net cs p' (q + 1) := net_trans ..
    have := hpos' p (by omega) hlt
    omega

theorem balanced_refl (cs : List Char) (a : Nat) : Balanced cs a a := by
  constructor
  · intro r h1 h2
    have : r = a := by omega
    subst this
    rw [net_self]
  · exact net_self cs a

theorem balanced_extend (cs : List Char) (a b : Nat) (hb : Balanced cs a b)
    (h0 : bval (cs.getD b ' ') = 0) : Balanced cs a (b + 1) := by
  obtain ⟨hpos, hnet⟩ := hb
  constructor
  · intro r h1 h2
    rcases Nat.lt_or_ge r (b + 1) with hlt | hge
    · exact hpos r h1 (by omega)
    · have : r = b + 1 := by omega
      subst this
      rw [net_succ, hnet, h0]
      omega
  · rw [net_succ, hnet, h0]
    omega

theorem balanced_merge (cs : List Char) (a p n : Nat)
    (hopen : cs.getD p ' ' = '[') (hclose : cs.getD n ' ' = ']')
    (ha : a ≤ p) (hpn : p < n)
    (h1 : Balanced cs a p) (h2 : Balanced cs (p + 1) n) : Balanced cs a (n + 1) := by
  obtain ⟨pos1, net1⟩ := h1
  obtain ⟨pos2, net2⟩ := h2
  have hbp : net cs p (p + 1) = 1 := by rw [net_succ, net_self, hopen]; simp [bval]
  have hbn : net cs n (n + 1) = -1 := by
    rw [net_succ, net_self, hclose]; simp [bval]
  have chain : ∀ r, net cs a p + net cs p (p + 1) + net cs (p + 1) r = net cs a r := by
    intro r
    rw [net_trans, net_trans]
  constructor
  · intro r hr1 hr2
    rcases Nat.lt_or_ge r (p + 1) with hA | hA
    · exact pos1 r hr1 (by omega)
    · rcases Nat.lt_or_ge r (n + 1) with hB | hB
      · have h3 := pos2 r (by omega) (by omega)
        have h4 := chain r
        omega
      · have : r = n + 1 := by omega
        subst this
        have h4 := chain n
        have h5 : net cs a n + net cs n (n + 1) = net cs a (n + 1) := net_trans ..
        omega
  · have h4 := chain n
    have h5 : net cs a n + net cs n (n + 1) = net cs a (n + 1) := net_trans ..
    omega

theorem balanced_matches (cs : List Char) (p n : Nat)
    (hp : p < cs.length) (hn : n < cs.length)
    (hopen : cs.getD p ' ' = '[') (hclose : cs.getD n ' ' = ']') (hpn : p < n)
    (hb : Balanced cs (p + 1) n) : Matches cs p n := by
  obtain ⟨pos2, net2⟩ := hb
  have hbp : net cs p (p + 1) = 1 := by rw [net_succ, net_self, hopen]; simp [bval]
  have hbn : net cs n (n + 1) = -1 := by
    rw [net_succ, net_self, hclose]; simp [bval]
  refine ⟨hp, hn, hopen, hclose, hpn, ?_, ?_⟩
  · intro r hr1 hr2
    have e : net cs p (p + 1) + net cs (p + 1) r = net cs p r := net_trans ..
    have h2 := pos2 r (by omega) (by omega)
    omega
  · have e : net cs p (p + 1) + net cs (p + 1) n = net cs p n := net_trans ..
    have e2 : net cs p n + net cs n (n + 1) = net cs p (n + 1) := net_trans ..
    omega

theorem gapsOK_extend (cs : List Char) (n : Nat) (h0 : bval (cs.getD n ' ') = 0) :
    ∀ st : List Nat, GapsOK cs st n → GapsOK cs st (n + 1) := by
  intro st h
  cases st with
  | nil => trivial
  | cons p rest =>
    obtain ⟨hb, hrest⟩ := h
    exact ⟨balanced_extend cs (p + 1) n hb h0, hrest⟩

theorem matches_close_char (cs : List Char) (p q : Nat) (h : Matches cs p q) :
    cs.getD q ' ' = ']' := h.2.2.2.1

theorem matches_open_char (cs : List Char) (p q : Nat) (h : Matches cs p q) :
    cs.getD p ' ' = '[' := h.2.2.1

theorem unmatchedCloseUpTo_succ (cs : List Char) (n : Nat) :
    unmatchedCloseUpTo cs (n + 1) = unmatchedCloseUpTo cs n +
      (if (cs.getD n ' ' = ']' ∧ ∀ p < n, ¬ Matches cs p n) then 1 else 0) := by
  unfold unmatchedCloseUpTo
  rw [List.range_succ, List.countP_append]
  congr 1
  by_cases h : (cs.getD n ' ' = ']' ∧ ∀ p < n, ¬ Matches cs p n)
  · simp [List.countP_cons, h]
  · simp [List.countP_cons, h]

theorem matches_not_at (cs : List Char) (n : Nat) (hc : cs.getD n ' ' ≠ ']') (p : Nat) :
    ¬ Matches cs p n := fun hm => hc (matches_close_char cs p n hm)

theorem bjStep_other (i : Nat) (c : Char) (s : BJState) (h1 : c ≠ '[') (h2 : c ≠ ']') :
    bjStep i c s = s := by
  simp [bjStep, h1, h2]

theorem bjStep_open (i : Nat) (s : BJState) :
    bjStep i '[' s = { s with stack := i :: s.stack } := by
  simp [bjStep]

theorem bjStep_close_nil (i : Nat) (s : BJState) (h : s.stack = []) :
    bjStep i ']' s = { s with uclose := s.uclose + 1 } := by
  simp [bjStep, h]

theorem bjStep_close_cons (i : Nat) (s : BJState) (p : Nat) (rest : List Nat)
    (h : s.stack = p :: rest) :
    bjStep i ']' s = { s with
      stack := rest,
      jt := fun j => if j = p then some i else if j = i then some p else s.jt j } := by
  simp [bjStep, h]

theorem stack_iff_extend (cs : List Char) (n : Nat) (st : List Nat)
    (hmem : ∀ p, p ∈ st ↔ (p < n ∧ cs.getD p ' ' = '[' ∧ ∀ q < n, ¬ Matches cs p q))
    (hnoM : ∀ p, ¬ Matches cs p n) (hnotopen : cs.getD n ' ' ≠ '[') :
    ∀ p, p ∈ st ↔ (p < n + 1 ∧ cs.getD p ' ' = '[' ∧ ∀ q < n + 1, ¬ Matches cs p q) := by
  intro p
  rw [hmem p]
  constructor
  · rintro ⟨h1, h2, h3⟩
    refine ⟨by omega, h2, fun q hq => ?_⟩
    rcases Nat.lt_or_ge q n with h | h
    · exact h3 q h
    · have : q = n := by omega
      subst this
      exact hnoM p
  · rintro ⟨h1, h2, h3⟩
    have hpn : p ≠ n := fun h => hnotopen (h ▸ h2)
    exact ⟨by omega, h2, fun q hq => h3 q (by omega)⟩

theorem jt_iff_extend (cs : List Char) (n : Nat) (jtf : Nat → Option Nat)
    (hjt : ∀ j m, jtf j = some m ↔
      ((Matches cs j m ∧ m < n) ∨ (Matches cs m j ∧ j < n)))
    (hnoM : ∀ p, ¬ Matches cs p n) :
    ∀ j m, jtf j = some m ↔
      ((Matches cs j m ∧ m < n + 1) ∨ (Matches cs m j ∧ j < n + 1)) := by
  intro j m
  rw [hjt j m]
  constructor
  · rintro (⟨hM, h⟩ | ⟨hM, h⟩)
    · exact Or.inl ⟨hM, by omega⟩
    · exact Or.inr ⟨hM, by omega⟩
  · rintro (⟨hM, h⟩ | ⟨hM, h⟩)
    · rcases Nat.lt_or_ge m n with h' | h'
      · exact Or.inl ⟨hM, h'⟩
      · have : m = n := by omega
        subst this
        exact absurd hM (hnoM j)
    · rcases Nat.lt_or_ge j n with h' | h'
      · exact Or.inr ⟨hM, h'⟩
      · have : j = n := by omega
        subst this
        exact absurd hM (hnoM m)

theorem bjRun_inv (cs : List Char) : ∀ n, n ≤ cs.length → BJInv cs n (bjRun cs n) := by
  intro n
  induction n with
  | zero =>
    intro _
    refine ⟨List.Pairwise.nil, ?_, ?_, ?_, trivial⟩
    · intro p
      simp [bjRun, bjInit]
    · intro j m
      simp [bjRun, bjInit]
    · simp [bjRun, bjInit, unmatchedCloseUpTo]
  | succ n ih =>
    intro hlen
    have hn : n < cs.length := by omega
    obtain ⟨hpw, hmem, hjt, huc, hgap⟩ := ih (by omega)
    show BJInv cs (n + 1) (bjStep n (cs.getD n ' ') (bjRun cs n))
    by_cases hc1 : cs.getD n ' ' = '['
    · -- push the open bracket
      have hnoM : ∀ p, ¬ Matches cs p n := matches_not_at cs n (by rw [hc1]; decide)
      have hPW : (n :: (bjRun cs n).stack).Pairwise (fun a b => b < a) :=
        List.pairwise_cons.mpr ⟨fun b hb => ((hmem b).1 hb).1, hpw⟩
      have hMEM : ∀ p, p ∈ n :: (bjRun cs n).stack ↔
          (p < n + 1 ∧ cs.getD p ' ' = '[' ∧ ∀ q < n + 1, ¬ Matches cs p q) := by
        intro p
        constructor
        · intro hp
          rcases List.mem_cons.mp hp with rfl | hp
          · exact ⟨by omega, hc1, fun q hq hM => by have := hM.2.2.2.2.1; omega⟩
          · obtain ⟨h1, h2, h3⟩ := (hmem p).1 hp
            refine ⟨by omega, h2, fun q hq => ?_⟩
            rcases Nat.lt_or_ge q n with h | h
            · exact h3 q h
            · have : q = n := by omega
              subst this
              exact hnoM p
        · rintro ⟨h1, h2, h3⟩
          by_cases hpn : p = n
          · subst hpn
            exact List.mem_cons_self ..
          · exact List.mem_cons_of_mem _
              ((hmem p).2 ⟨by omega, h2, fun q hq => h3 q (by omega)⟩)
      have hJT := jt_iff_extend cs n (bjRun cs n).jt hjt hnoM
      have hUC : (bjRun cs n).uclose = unmatchedCloseUpTo cs (n + 1) := by
        have hcond : ¬(cs.getD n ' ' = ']' ∧ ∀ p < n, ¬ Matches cs p n) := by
          rintro ⟨hcl, -⟩
          rw [hc1] at hcl
          cases hcl
        rw [unmatchedCloseUpTo_succ, if_neg hcond, huc]
        omega
      have hGAP : GapsOK cs (n :: (bjRun cs n).stack) (n + 1) :=
        ⟨balanced_refl cs (n + 1), hgap⟩
      rw [hc1, bjStep_open]
      exact ⟨hPW, hMEM, hJT, hUC, hGAP⟩
    · by_cases hc2 : cs.getD n ' ' = ']'
      · cases hstk : (bjRun cs n).stack with
        | nil =>
          -- unmatched close
          have hnoM : ∀ p, ¬ Matches cs p n := by
            intro p hM
            have hplt : p < n := hM.2.2.2.2.1
            have hpopen : cs.getD p ' ' = '[' := hM.2.2.1
            have hnotmem : p ∉ (bjRun cs n).stack := by
              rw [hstk]
              exact List.not_mem_nil p
            rw [hmem p] at hnotmem
            push_neg at hnotmem
            obtain ⟨q, hq, hMq⟩ := hnotmem hplt hpopen
            have := matches_right_unique cs p q n hMq hM
            omega
          have hMEM := stack_iff_extend cs n (bjRun cs n).stack hmem hnoM
            (by rw [hc2]; decide)
          have hJT := jt_iff_extend cs n (bjRun cs n).jt hjt hnoM
          have hUC : (bjRun cs n).uclose + 1 = unmatchedCloseUpTo cs (n + 1) := by
            rw [unmatchedCloseUpTo_succ, if_pos ⟨hc2, fun p _ => hnoM p⟩, huc]
          have hGAP : GapsOK cs (bjRun cs n).stack (n + 1) := by
            rw [hstk]
            trivial
          rw [hc2, bjStep_close_nil n (bjRun cs n) hstk]
          exact ⟨hpw, hMEM, hJT, hUC, hGAP⟩
        | cons p₀ rest =>
          -- pop and record the matched pair (p₀, n)
          have hp₀ := (hmem p₀).1 (by rw [hstk]; exact List.mem_cons_self ..)
          have hp₀lt : p₀ < n := hp₀.1
          have hopen : cs.getD p₀ ' ' = '[' := hp₀.2.1
          have hpw' : (p₀ :: rest).Pairwise (fun a b => b < a) := by rw [← hstk]; exact hpw
          have hgap' : GapsOK cs (p₀ :: rest) n := by rw [← hstk]; exact hgap
          obtain ⟨hbtop, hgrest⟩ := hgap'
          have hmatch : Matches cs p₀ n :=
            balanced_matches cs p₀ n (by omega) hn hopen hc2 hp₀lt hbtop
          have hrestlt : ∀ p ∈ rest, p < p₀ := (List.pairwise_cons.mp hpw').1
          have hMEM : ∀ p, p ∈ rest ↔
              (p < n + 1 ∧ cs.getD p ' ' = '[' ∧ ∀ q < n + 1, ¬ Matches cs p q) := by
            intro p
            constructor
            · intro hp
              obtain ⟨h1, h2, h3⟩ := (hmem p).1
                (by rw [hstk]; exact List.mem_cons_of_mem _ hp)
              refine ⟨by omega, h2, fun q hq => ?_⟩
              rcases Nat.lt_or_ge q n with h | h
              · exact h3 q h
              · have hqn : q = n := by omega
                rw [hqn]
                intro hM
                have := matches_left_unique cs p p₀ n hM hmatch
                have := hrestlt p hp
                omega
            · rintro ⟨h1, h2, h3⟩
              have hpn : p ≠ n := fun h => by
                rw [h, hc2] at h2
                cases h2
              have hpmem : p ∈ p₀ :: rest := by
                rw [← hstk]
                exact (hmem p).2 ⟨by omega, h2, fun q hq => h3 q (by omega)⟩
              rcases List.mem_cons.mp hpmem with rfl | hp
              · exact absurd hmatch (h3 n (by omega))
              · exact hp
          have hJT : ∀ j m,
              (fun j => if j = p₀ then some n else if j = n then some p₀
                else (bjRun cs n).jt j) j = some m ↔
              ((Matches cs j m ∧ m < n + 1) ∨ (Matches cs m j ∧ j < n + 1)) := by
            intro j m
            by_cases hj1 : j = p₀
            · simp only [if_pos hj1]
              constructor
              · intro h
                injection h with h
                refine Or.inl ⟨?_, by omega⟩
                rw [hj1, ← h]
                exact hmatch
              · rintro (⟨hM, hm⟩ | ⟨hM, hjj⟩)
                · have heq := matches_right_unique cs p₀ m n (hj1 ▸ hM) hmatch
                  rw [heq]
                · have hcc := matches_close_char cs m j hM
                  rw [hj1, hopen] at hcc
                  cases hcc
            · by_cases hj2 : j = n
              · simp only [if_neg hj1, if_pos hj2]
                constructor
                · intro h
                  injection h with h
                  refine Or.inr ⟨?_, by omega⟩
                  rw [hj2, ← h]
                  exact hmatch
                · rintro (⟨hM, hm⟩ | ⟨hM, hjj⟩)
                  · have hoc := matches_open_char cs j m hM
                    rw [hj2, hc2] at hoc
                    cases hoc
                  · have heq := matches_left_unique cs m p₀ n (hj2 ▸ hM) hmatch
                    rw [heq]
              · simp only [if_neg hj1, if_neg hj2]
                rw [hjt j m]
                constructor
                · rintro (⟨hM, h⟩ | ⟨hM, h⟩)
                  · exact Or.inl ⟨hM, by omega⟩
                  · exact Or.inr ⟨hM, by omega⟩
                · rintro (⟨hM, h⟩ | ⟨hM, h⟩)
                  · rcases Nat.lt_or_ge m n with h' | h'
                    · exact Or.inl ⟨hM, h'⟩
                    · have hmn : m = n := by omega
                      rw [hmn] at hM
                      exact absurd (matches_left_unique cs j p₀ n hM hmatch) hj1
                  · rcases Nat.lt_or_ge j n with h' | h'
                    · exact Or.inr ⟨hM, h'⟩
                    · have : j = n := by omega
                      exact absurd this hj2
          have hUC : (bjRun cs n).uclose = unmatchedCloseUpTo cs (n + 1) := by
            have hcond : ¬(cs.getD n ' ' = ']' ∧ ∀ p < n, ¬ Matches cs p n) := by
              rintro ⟨-, hall⟩
              exact hall p₀ hp₀lt hmatch
            rw [unmatchedCloseUpTo_succ, if_neg hcond, huc]
            omega
          have hGAP : GapsOK cs rest (n + 1) := by
            cases rest with
            | nil => trivial
            | cons p₁ r =>
              obtain ⟨hb1, hg1⟩ := hgrest
              have hp1lt : p₁ < p₀ := hrestlt p₁ (List.mem_cons_self ..)
              exact ⟨balanced_merge cs (p₁ + 1) p₀ n hopen hc2 (by omega) hp₀lt
                hb1 hbtop, hg1⟩
          have hPW : rest.Pairwise (fun a b => b < a) := (List.pairwise_cons.mp hpw').2
          rw [hc2, bjStep_close_cons n (bjRun cs n) p₀ rest hstk]
          exact ⟨hPW, hMEM, hJT, hUC, hGAP⟩
      · -- non-bracket character: state unchanged
        have hnoM : ∀ p, ¬ Matches cs p n := matches_not_at cs n hc2
        have hMEM := stack_iff_extend cs n (bjRun cs n).stack hmem hnoM hc1
        have hJT := jt_iff_extend cs n (bjRun cs n).jt hjt hnoM
        have hUC : (bjRun cs n).uclose = unmatchedCloseUpTo cs (n + 1) := by
          have hcond : ¬(cs.getD n ' ' = ']' ∧ ∀ p < n, ¬ Matches cs p n) := by
            rintro ⟨hcl, -⟩
            exact hc2 hcl
          rw [unmatchedCloseUpTo_succ, if_neg hcond, huc]
          omega
        have hBV : bval (cs.getD n ' ') = 0 := by
          unfold bval
          rw [if_neg hc1, if_neg hc2]
        have hGAP := gapsOK_extend cs n hBV (bjRun cs n).stack hgap
        rw [bjStep_other n (cs.getD n ' ') (bjRun cs n) hc1 hc2]
        exact ⟨hpw, hMEM, hJT, hUC, hGAP⟩

theorem buildJT_inv (cs : List Char) : BJInv cs cs.length (buildJT cs) :=
  bjRun_inv cs cs.length le_rfl

theorem buildJT_matches (cs : List Char) (p q : Nat) (h : Matches cs p q) :
    (buildJT cs).jt p = some q ∧ (buildJT cs).jt q = some p := by
  obtain ⟨-, -, hjt, -, -⟩ := buildJT_inv cs
  exact ⟨(hjt p q).2 (Or.inl ⟨h, h.2.1⟩), (hjt q p).2 (Or.inr ⟨h, h.2.1⟩)⟩

theorem buildJT_stack_iff (cs : List Char) (p : Nat) :
    p ∈ (buildJT cs).stack ↔
      (cs.getD p ' ' = '[' ∧ p < cs.length ∧ ∀ q, ¬ Matches cs p q) := by
  obtain ⟨-, hmem, -, -, -⟩ := buildJT_inv cs
  rw [hmem p]
  constructor
  · rintro ⟨h1, h2, h3⟩
    exact ⟨h2, h1, fun q hM => h3 q hM.2.1 hM⟩
  · rintro ⟨h2, h1, h3⟩
    exact ⟨h1, h2, fun q _ => h3 q⟩

theorem buildJT_uclose (cs : List Char) :
    (buildJT cs).uclose = unmatchedCloseCount cs :=
  (buildJT_inv cs).2.2.2.1

theorem buildJT_stack_length (cs : List Char) :
    (buildJT cs).stack.length = unmatchedOpenCount cs := by
  obtain ⟨hpw, hmem, -, -, -⟩ := buildJT_inv cs
  have hnd1 : (buildJT cs).stack.Nodup := hpw.imp (fun h => ne_of_gt h)
  have hnd2 : ((List.range cs.length).filter
      (fun p => decide (cs.getD p ' ' = '[' ∧ ∀ q < cs.length, ¬ Matches cs p q))).Nodup :=
    (List.nodup_range cs.length).filter _
  have hiff : ∀ a, a ∈ (buildJT cs).stack ↔ a ∈ (List.range cs.length).filter
      (fun p => decide (cs.getD p ' ' = '[' ∧ ∀ q < cs.length, ¬ Matches cs p q)) := by
    intro a
    rw [hmem a, List.mem_filter, List.mem_range, decide_eq_true_eq]
  have hperm := (List.perm_ext_iff_of_nodup hnd1 hnd2).mpr hiff
  rw [unmatchedOpenCount, List.countP_eq_length_filter, ← hperm.length_eq]

theorem allMatched_iff (cs : List Char) : AllMatched cs ↔ unmatchedTotal cs = 0 := by
  constructor
  · rintro ⟨hop, hcl⟩
    have h1 : (buildJT cs).stack = [] := by
      cases hstk : (buildJT cs).stack with
      | nil => rfl
      | cons p r =>
        exfalso
        have hp := (buildJT_stack_iff cs p).1 (by rw [hstk]; exact List.mem_cons_self ..)
        obtain ⟨q, hq⟩ := hop p hp.2.1 hp.1
        exact hp.2.2 q hq
    have h2 : (buildJT cs).uclose = 0 := by
      rw [buildJT_uclose, unmatchedCloseCount, unmatchedCloseUpTo, List.countP_eq_zero]
      intro q hq
      simp only [decide_eq_true_eq, not_and]
      intro hcq hall
      have hqlen : q < cs.length := List.mem_range.mp hq
      obtain ⟨p, hp⟩ := hcl q hqlen hcq
      exact hall p hp.2.2.2.2.1 hp
    rw [unmatchedTotal, h1, h2]
    rfl
  · intro h
    have h1 : (buildJT cs).stack = [] := by
      rw [← List.length_eq_zero]
      unfold unmatchedTotal at h
      omega
    have h2 : (buildJT cs).uclose = 0 := by
      unfold unmatchedTotal at h
      omega
    constructor
    · intro p hplen hpopen
      by_contra hnone
      push_neg at hnone
      have hmem : p ∈ (buildJT cs).stack :=
        (buildJT_stack_iff cs p).2 ⟨hpopen, hplen, hnone⟩
      rw [h1] at hmem
      exact List.not_mem_nil p hmem
    · intro q hqlen hqclose
      by_contra hnone
      push_neg at hnone
      have hcnt := buildJT_uclose cs
      rw [h2] at hcnt
      have hz := List.countP_eq_zero.mp hcnt.symm q (List.mem_range.mpr hqlen)
      simp only [decide_eq_true_eq] at hz
      exact hz ⟨hqclose, fun p _ => hnone p⟩

/-! ### Execution of the spec's test programs -/

theorem setMem_same (m : Int → Nat) (i : Int) (v : Nat) : setMem m i v i = v := by
  unfold setMem
  rw [if_pos rfl]

theorem setMem_other (m : Int → Nat) (i : Int) (v : Nat) (j : Int) (h : j ≠ i) :
    setMem m i v j = m j := by
  unfold setMem
  rw [if_neg h]

theorem clear_jt_zero : (buildJT ['[', '-', ']']).jt 0 = some 2 := by rfl

theorem clear_jt_two : (buildJT ['[', '-', ']']).jt 2 = some 0 := by rfl

theorem clear_step_close_zero (s : ExecState) (hpc : s.pc = 2) (hmem : s.mem s.cur = 0) :
    execStep clearProg (buildJT clearProg).jt s = { s with pc := 3 } := by
  simp [execStep, clearProg, hmem, hpc]

theorem clear_step_close_pos (s : ExecState) (v : Nat) (hpc : s.pc = 2)
    (hmem : s.mem s.cur = v + 1) :
    execStep clearProg (buildJT clearProg).jt s = { s with pc := 1 } := by
  simp [execStep, clearProg, hmem, hpc, clear_jt_two]

theorem clear_step_dec (s : ExecState) (hpc : s.pc = 1) :
    execStep clearProg (buildJT clearProg).jt s
      = { s with pc := 2, mem := setMem s.mem s.cur ((s.mem s.cur + 255) % 256) } := by
  simp [execStep, clearProg, hpc]

theorem clear_step_open_zero (s : ExecState) (hpc : s.pc = 0) (hmem : s.mem s.cur = 0) :
    execStep clearProg (buildJT clearProg).jt s = { s with pc := 3 } := by
  simp [execStep, clearProg, hmem, hpc, clear_jt_zero]

theorem clear_step_open_pos (s : ExecState) (v : Nat) (hpc : s.pc = 0)
    (hmem : s.mem s.cur = v + 1) :
    execStep clearProg (buildJT clearProg).jt s = { s with pc := 1 } := by
  simp [execStep, clearProg, hmem, hpc]

theorem clear_loop_aux : ∀ (v : Nat), v < 256 → ∀ (s : ExecState),
    s.pc = 2 → s.mem s.cur = v →
    (execRun clearProg (buildJT clearProg).jt (2 * v + 1) s).pc = 3 ∧
    (∀ j, (execRun clearProg (buildJT clearProg).jt (2 * v + 1) s).mem j
      = if j = s.cur then 0 else s.mem j) ∧
    (execRun clearProg (buildJT clearProg).jt (2 * v + 1) s).cur = s.cur ∧
    (execRun clearProg (buildJT clearProg).jt (2 * v + 1) s).out = s.out ∧
    (execRun clearProg (buildJT clearProg).jt (2 * v + 1) s).inp = s.inp := by
  intro v
  induction v with
  | zero =>
    intro _ s hpc hmem
    have h1 : execRun clearProg (buildJT clearProg).jt 1 s
        = execStep clearProg (buildJT clearProg).jt s :=
      execRun_step_of_lt _ _ 0 s (by rw [hpc]; decide)
    rw [show 2 * 0 + 1 = 1 from rfl, h1, clear_step_close_zero s hpc hmem]
    refine ⟨rfl, ?_, rfl, rfl, rfl⟩
    intro j
    by_cases hj : j = s.cur
    · rw [if_pos hj, hj, hmem]
    · rw [if_neg hj]
  | succ v ihv =>
    intro hv s hpc hmem
    have hstep1 : execStep clearProg (buildJT clearProg).jt s = { s with pc := 1 } :=
      clear_step_close_pos s v hpc hmem
    have hstep2 : execStep clearProg (buildJT clearProg).jt { s with pc := 1 }
        = { s with
            pc := 2
            mem := setMem s.mem s.cur ((s.mem s.cur + 255) % 256) } :=
      clear_step_dec { s with pc := 1 } rfl
    have hv' : v < 256 := by omega
    have hmodv : (v + 1 + 255) % 256 = v := by omega
    rw [show 2 * (v + 1) + 1 = (2 * v + 1) + 1 + 1 from by ring]
    rw [execRun_step_of_lt _ _ _ s (by rw [hpc]; decide), hstep1]
    rw [execRun_step_of_lt _ _ _ { s with pc := 1 }
      (by show (1 : Nat) < clearProg.length; decide), hstep2]
    have hmem2 : ({ s with
        pc := 2
        mem := setMem s.mem s.cur ((s.mem s.cur + 255) % 256) } : ExecState).mem
        ({ s with
          pc := 2
          mem := setMem s.mem s.cur ((s.mem s.cur + 255) % 256) } : ExecState).cur = v := by
      show setMem s.mem s.cur ((s.mem s.cur + 255) % 256) s.cur = v
      rw [setMem_same, hmem, hmodv]
    obtain ⟨e1, e2, e3, e4, e5⟩ := ihv hv' { s with
      pc := 2
      mem := setMem s.mem s.cur ((s.mem s.cur + 255) % 256) } rfl hmem2
    refine ⟨e1, ?_, e3, e4, e5⟩
    intro j
    rw [e2 j]
    show (if j = s.cur then (0 : Nat)
        else setMem s.mem s.cur ((s.mem s.cur + 255) % 256) j)
      = if j = s.cur then 0 else s.mem j
    by_cases hj : j = s.cur
    · rw [if_pos hj, if_pos hj]
    · rw [if_neg hj, if_neg hj, setMem_other _ _ _ j hj]

theorem replicate_getD_cmd (c : Char) (N p : Nat) (h : p < N) :
    (List.replicate N c).getD p ' ' = c := by
  rw [List.getD_eq_getElem?_getD, List.getElem?_replicate, if_pos h, Option.getD_some]

theorem plus_run : ∀ (k p : Nat) (jt : Nat → Option Nat) (s : ExecState),
    s.pc = p → s.mem s.cur < 256 →
    (execRun (List.replicate (p + k) '+') jt k s).pc = p + k ∧
    (execRun (List.replicate (p + k) '+') jt k s).mem s.cur = (s.mem s.cur + k) % 256 ∧
    (∀ j, j ≠ s.cur → (execRun (List.replicate (p + k) '+') jt k s).mem j = s.mem j) ∧
    (execRun (List.replicate (p + k) '+') jt k s).cur = s.cur ∧
    (execRun (List.replicate (p + k) '+') jt k s).out = s.out ∧
    (execRun (List.replicate (p + k) '+') jt k s).inp = s.inp := by
  intro k
  induction k with
  | zero =>
    intro p jt s hpc hlt
    refine ⟨by simp [execRun, hpc], ?_, fun j _ => rfl, rfl, rfl, rfl⟩
    show s.mem s.cur = (s.mem s.cur + 0) % 256
    omega
  | succ k ihk =>
    intro p jt s hpc hlt
    have hlen : s.pc < (List.replicate (p + (k + 1)) '+').length := by
      rw [List.length_replicate, hpc]
      omega
    have hg : (List.replicate (p + (k + 1)) '+').getD s.pc ' ' = '+' := by
      rw [hpc]
      exact replicate_getD_cmd '+' _ p (by omega)
    have hstep : execStep (List.replicate (p + (k + 1)) '+') jt s
        = { s with
            pc := s.pc + 1
            mem := setMem s.mem s.cur ((s.mem s.cur + 1) % 256) } := by
      simp only [execStep]
      rw [hg]
      simp
    rw [execRun_step_of_lt _ _ _ _ hlen, hstep]
    have hmem2 : ({ s with
        pc := s.pc + 1
        mem := setMem s.mem s.cur ((s.mem s.cur + 1) % 256) } : ExecState).mem
        ({ s with
          pc := s.pc + 1
          mem := setMem s.mem s.cur ((s.mem s.cur + 1) % 256) } : ExecState).cur
        = (s.mem s.cur + 1) % 256 := by
      show setMem s.mem s.cur ((s.mem s.cur + 1) % 256) s.cur = (s.mem s.cur + 1) % 256
      rw [setMem_same]
    have hrw : p + (k + 1) = (p + 1) + k := by ring
    rw [hrw]
    obtain ⟨e1, e2, e3, e4, e5, e6⟩ :=
      ihk (p + 1) jt { s with
        pc := s.pc + 1
        mem := setMem s.mem s.cur ((s.mem s.cur + 1) % 256) }
        (by show s.pc + 1 = p + 1; rw [hpc]) (by rw [hmem2]; omega)
    refine ⟨by rw [e1], ?_, ?_, e4, e5, e6⟩
    · rw [e2, hmem2, Nat.mod_add_mod]
      congr 1
      ring
    · intro j hj
      rw [e3 j hj]
      show setMem s.mem s.cur ((s.mem s.cur + 1) % 256) j = s.mem j
      rw [setMem_other _ _ _ j hj]

theorem minus_run : ∀ (k p : Nat) (jt : Nat → Option Nat) (s : ExecState),
    s.pc = p → s.mem s.cur < 256 →
    (execRun (List.replicate (p + k) '-') jt k s).pc = p + k ∧
    (execRun (List.replicate (p + k) '-') jt k s).mem s.cur
      = (s.mem s.cur + 255 * k) % 256 ∧
    (∀ j, j ≠ s.cur → (execRun (List.replicate (p + k) '-') jt k s).mem j = s.mem j) ∧
    (execRun (List.replicate (p + k) '-') jt k s).cur = s.cur ∧
    (execRun (List.replicate (p + k) '-') jt k s).out = s.out ∧
    (execRun (List.replicate (p + k) '-') jt k s).inp = s.inp := by
  intro k
  induction k with
  | zero =>
    intro p jt s hpc hlt
    refine ⟨by simp [execRun, hpc], ?_, fun j _ => rfl, rfl, rfl, rfl⟩
    show s.mem s.cur = (s.mem s.cur + 255 * 0) % 256
    omega
  | succ k ihk =>
    intro p jt s hpc hlt
    have hlen : s.pc < (List.replicate (p + (k + 1)) '-').length := by
      rw [List.length_replicate, hpc]
      omega
    have hg : (List.replicate (p + (k + 1)) '-').getD s.pc ' ' = '-' := by
      rw [hpc]
      exact replicate_getD_cmd '-' _ p (by omega)
    have hstep : execStep (List.replicate (p + (k + 1)) '-') jt s
        = { s with
            pc := s.pc + 1
            mem := setMem s.mem s.cur ((s.mem s.cur + 255) % 256) } := by
      simp only [execStep]
      rw [hg]
      simp
    rw [execRun_step_of_lt _ _ _ _ hlen, hstep]
    have hmem2 : ({ s with
        pc := s.pc + 1
        mem := setMem s.mem s.cur ((s.mem s.cur + 255) % 256) } : ExecState).mem
        ({ s with
          pc := s.pc + 1
          mem := setMem s.mem s.cur ((s.mem s.cur + 255) % 256) } : ExecState).cur
        = (s.mem s.cur + 255) % 256 := by
      show setMem s.mem s.cur ((s.mem s.cur + 255) % 256) s.cur = (s.mem s.cur + 255) % 256
      rw [setMem_same]
    have hrw : p + (k + 1) = (p + 1) + k := by ring
    rw [hrw]
    obtain ⟨e1, e2, e3, e4, e5, e6⟩ :=
      ihk (p + 1) jt { s with
        pc := s.pc + 1
        mem := setMem s.mem s.cur ((s.mem s.cur + 255) % 256) }
        (by show s.pc + 1 = p + 1; rw [hpc]) (by rw [hmem2]; omega)
    refine ⟨by rw [e1], ?_, ?_, e4, e5, e6⟩
    · rw [e2, hmem2, Nat.mod_add_mod]
      congr 1
      ring
    · intro j hj
      rw [e3 j hj]
      show setMem s.mem s.cur ((s.mem s.cur + 255) % 256) j = s.mem j
      rw [setMem_other _ _ _ j hj]

/-! ### The end-of-input state of the lexer is absorbing -/

theorem atEnd_peekT (L : Lexer) (h : AtEnd L) : peekT L = .TOKEN_EOF := by
  obtain ⟨hfil, hcache⟩ := h
  cases hc : L.cache with
  | some t =>
    rw [(peek_cache_some L t hc).1]
    exact hcache t hc
  | none => exact (peek_none_nil L hc hfil).1

theorem atEnd_peekL (L : Lexer) (h : AtEnd L) : AtEnd (peekL L) := by
  obtain ⟨hfil, hcache⟩ := h
  cases hc : L.cache with
  | some t =>
    rw [(peek_cache_some L t hc).2]
    exact ⟨hfil, hcache⟩
  | none =>
    rw [(peek_none_nil L hc hfil).2]
    constructor
    · show (L.source.drop (L.position + seek (L.source.drop L.position))).filter isCommand
        = []
      rw [← List.drop_drop, List.filter_eq_nil_iff]
      intro a ha
      exact List.filter_eq_nil_iff.mp hfil a (List.drop_subset _ _ ha)
    · intro t ht
      injection ht with ht
      rw [← ht]

theorem atEnd_next (L : Lexer) (h : AtEnd L) : AtEnd (lexerNext L) :=
  ⟨h.1, fun t ht => nomatch ht⟩

theorem atEnd_applyOps (L : Lexer) (h : AtEnd L) :
    ∀ ops : List LexOp, AtEnd (applyOps ops L) := by
  intro ops
  induction ops generalizing L with
  | nil => exact h
  | cons op rest ih =>
    show AtEnd (applyOps rest (applyOp L op))
    cases op with
    | peekOp => exact ih (peekL L) (atEnd_peekL L h)
    | nextOp => exact ih (lexerNext L) (atEnd_next L h)

/-! ### The claims -/

/-- Claim C1: `build_jump_table` is a bijection on matched bracket pairs —
for every `[` at `p` whose matching `]` is at `q`, the final jump table maps
`p` to `q` and `q` to `p`; a `]` scanned with an empty stack increments the
unmatched-close counter; the final stack holds exactly the unmatched `[`
(so its depth is the unmatched-open count); and the returned total is
unmatched-open plus unmatched-close. -/
theorem claim_C1 (cs : List Char) :
    (∀ p q, Matches cs p q →
      (buildJT cs).jt p = some q ∧ (buildJT cs).jt q = some p) ∧
    (∀ (s : BJState) (i : Nat), s.stack = [] →
      (bjStep i ']' s).uclose = s.uclose + 1) ∧
    (∀ p, p ∈ (buildJT cs).stack ↔
      (cs.getD p ' ' = '[' ∧ p < cs.length ∧ ∀ q, ¬ Matches cs p q)) ∧
    (buildJT cs).uclose = unmatchedCloseCount cs ∧
    (buildJT cs).stack.length = unmatchedOpenCount cs ∧
    unmatchedTotal cs = unmatchedOpenCount cs + unmatchedCloseCount cs := by
  refine ⟨buildJT_matches cs, ?_, buildJT_stack_iff cs, buildJT_uclose cs,
    buildJT_stack_length cs, ?_⟩
  · intro s i h
    rw [bjStep_close_nil i s h]
  · rw [unmatchedTotal, buildJT_stack_length, buildJT_uclose]

theorem claim_C1_witness :
    Matches ['[', ']'] 0 1 ∧
    (buildJT ['[', ']']).jt 0 = some 1 ∧ (buildJT ['[', ']']).jt 1 = some 0 ∧
    (bjStep 0 ']' bjInit).uclose = bjInit.uclose + 1 :=
  ⟨by decide, ((claim_C1 ['[', ']']).1 0 1 (by decide)).1,
    ((claim_C1 ['[', ']']).1 0 1 (by decide)).2,
    (claim_C1 ['[', ']']).2.1 bjInit 0 rfl⟩

/-- Claim C2: a program whose brackets do not all match is rejected with its
unmatched count and is never executed; in particular `"]"` and `"["` are
each reported as exactly one unmatched bracket and do not execute. -/
theorem claim_C2 :
    (∀ (prog : List Char) (inp : List Nat) (fuel : Nat), ¬ AllMatched prog →
      runMain prog inp fuel = .bracketError (unmatchedTotal prog) ∧
      ∀ s, runMain prog inp fuel ≠ .exec s) ∧
    (∀ (inp : List Nat) (fuel : Nat),
      runMain [']'] inp fuel = .bracketError 1 ∧
      runMain ['['] inp fuel = .bracketError 1) ∧
    unmatchedTotal [']'] = 1 ∧ unmatchedTotal ['['] = 1 := by
  have hmain : ∀ (prog : List Char) (inp : List Nat) (fuel : Nat), ¬ AllMatched prog →
      runMain prog inp fuel = .bracketError (unmatchedTotal prog) := by
    intro prog inp fuel hnm
    have hne : (buildJT prog).stack.length + (buildJT prog).uclose ≠ 0 :=
      fun h => hnm ((allMatched_iff prog).2 h)
    unfold runMain
    rw [if_pos hne]
    rfl
  refine ⟨fun prog inp fuel h => ⟨hmain prog inp fuel h, ?_⟩, ?_, by decide, by decide⟩
  · intro s hcontra
    rw [hmain prog inp fuel h] at hcontra
    cases hcontra
  · intro inp fuel
    constructor
    · rw [hmain [']'] inp fuel (by rw [allMatched_iff]; decide)]
      exact congrArg _ (by decide)
    · rw [hmain ['['] inp fuel (by rw [allMatched_iff]; decide)]
      exact congrArg _ (by decide)

theorem claim_C2_witness :
    ¬ AllMatched [']'] ∧
    runMain [']'] [] 0 = .bracketError (unmatchedTotal [']']) ∧
    runMain [']'] [] 0 ≠ .exec (initState []) ∧
    runMain [']'] [] 0 = .bracketError 1 ∧ runMain ['['] [] 0 = .bracketError 1 :=
  ⟨by rw [allMatched_iff]; decide,
    ((claim_C2).1 [']'] [] 0 (by rw [allMatched_iff]; decide)).1,
    ((claim_C2).1 [']'] [] 0 (by rw [allMatched_iff]; decide)).2 (initState []),
    ((claim_C2).2.1 [] 0).1, ((claim_C2).2.1 [] 0).2⟩

/-- Claim C3: a maximal run of `n` consecutive `>` (resp. `<`) tokens parses
to exactly one `AST_MOVE_PTR` node with offset `+n` (resp. `-n`), and a run
of `+` (resp. `-`) to one `AST_MODIFY_CELL` node with delta `+n` (resp.
`-n`), consuming exactly the run; mixed runs are not folded, so `">><"`
parses to exactly the two nodes `AST_MOVE_PTR 2` then `AST_MOVE_PTR (-1)`. -/
theorem claim_C3 :
    (∀ (L : Lexer) (n : Nat) (t : TokenType) (ts : List TokenType) (fuel : Nat),
      streamOf L = List.replicate n .TOKEN_RIGHT ++ t :: ts → t ≠ .TOKEN_RIGHT →
      1 ≤ n → n + 2 ≤ fuel →
      ∃ L', parseStatementF fuel L = .ok (.AST_MOVE_PTR (n : Int), L') ∧
        streamOf L' = t :: ts) ∧
    (∀ (L : Lexer) (n : Nat) (t : TokenType) (ts : List TokenType) (fuel : Nat),
      streamOf L = List.replicate n .TOKEN_LEFT ++ t :: ts → t ≠ .TOKEN_LEFT →
      1 ≤ n → n + 2 ≤ fuel →
      ∃ L', parseStatementF fuel L = .ok (.AST_MOVE_PTR (-(n : Int)), L') ∧
        streamOf L' = t :: ts) ∧
    (∀ (L : Lexer) (n : Nat) (t : TokenType) (ts : List TokenType) (fuel : Nat),
      streamOf L = List.replicate n .TOKEN_INC ++ t :: ts → t ≠ .TOKEN_INC →
      1 ≤ n → n + 2 ≤ fuel →
      ∃ L', parseStatementF fuel L = .ok (.AST_MODIFY_CELL (n : Int), L') ∧
        streamOf L' = t :: ts) ∧
    (∀ (L : Lexer) (n : Nat) (t : TokenType) (ts : List TokenType) (fuel : Nat),
      streamOf L = List.replicate n .TOKEN_DEC ++ t :: ts → t ≠ .TOKEN_DEC →
      1 ≤ n → n + 2 ≤ fuel →
      ∃ L', parseStatementF fuel L = .ok (.AST_MODIFY_CELL (-(n : Int)), L') ∧
        streamOf L' = t :: ts) ∧
    parserParseF 20 (mkLexer ['>', '>', '<'])
      = .ok (.AST_SEQUENCE [.AST_MOVE_PTR 2, .AST_MOVE_PTR (-1)]) := by
  refine ⟨?_, ?_, ?_, ?_, by rfl⟩
  · intro L n t ts fuel h ht hn hf
    exact parseGo_run_of_stream .TOKEN_RIGHT (by decide) _ (Or.inl ⟨rfl, rfl⟩)
      L n t ts fuel h ht hn hf
  · intro L n t ts fuel h ht hn hf
    exact parseGo_run_of_stream .TOKEN_LEFT (by decide) _ (Or.inr (Or.inl ⟨rfl, rfl⟩))
      L n t ts fuel h ht hn hf
  · intro L n t ts fuel h ht hn hf
    exact parseGo_run_of_stream .TOKEN_INC (by decide) _
      (Or.inr (Or.inr (Or.inl ⟨rfl, rfl⟩))) L n t ts fuel h ht hn hf
  · intro L n t ts fuel h ht hn hf
    exact parseGo_run_of_stream .TOKEN_DEC (by decide) _
      (Or.inr (Or.inr (Or.inr ⟨rfl, rfl⟩))) L n t ts fuel h ht hn hf

theorem claim_C3_witness :
    streamOf (mkLexer ['>']) = List.replicate 1 .TOKEN_RIGHT ++ .TOKEN_EOF :: [] ∧
    ∃ L', parseStatementF 3 (mkLexer ['>']) = .ok (.AST_MOVE_PTR (1 : Int), L') ∧
      streamOf L' = .TOKEN_EOF :: [] :=
  ⟨by decide, (claim_C3).1 (mkLexer ['>']) 1 .TOKEN_EOF [] 3
    (by decide) (by decide) (by decide) (by decide)⟩

/-- Claim C4: executing `"+[>+<-]"` on a zero tape with the cursor at cell 0
terminates (the program counter reaches the program length within 7 steps
and stays there) with cell 0 equal to 0 and cell 1 equal to 1. -/
theorem claim_C4 (fuel : Nat) (hf : 7 ≤ fuel) :
    (execRun incCopyProg (buildJT incCopyProg).jt fuel (initState [])).pc
      = incCopyProg.length ∧
    (execRun incCopyProg (buildJT incCopyProg).jt fuel (initState [])).mem 0 = 0 ∧
    (execRun incCopyProg (buildJT incCopyProg).jt fuel (initState [])).mem 1 = 1 := by
  obtain ⟨k, rfl⟩ : ∃ k, fuel = 7 + k := ⟨fuel - 7, by omega⟩
  rw [execRun_add]
  rw [execRun_stall incCopyProg (buildJT incCopyProg).jt k
    (execRun incCopyProg (buildJT incCopyProg).jt 7 (initState [])) (by decide)]
  refine ⟨by decide, by decide, by decide⟩

theorem claim_C4_witness :
    (execRun incCopyProg (buildJT incCopyProg).jt 7 (initState [])).mem 0 = 0 ∧
    (execRun incCopyProg (buildJT incCopyProg).jt 7 (initState [])).mem 1 = 1 :=
  ⟨(claim_C4 7 (by decide)).2.1, (claim_C4 7 (by decide)).2.2⟩

/-- Claim C5: `"[-]"` terminates for every initial value of the current
cell, leaving it 0 and every other cell untouched; when the cell is already
0 the very first step jumps past the loop, so the body (the `-`) never
executes and the tape is unchanged. -/
theorem claim_C5 (v : Nat) (s : ExecState) (hv : v < 256) (hpc : s.pc = 0)
    (hmem : s.mem s.cur = v) (fuel : Nat) (hf : 2 * v + 2 ≤ fuel) :
    (execRun clearProg (buildJT clearProg).jt fuel s).pc = clearProg.length ∧
    (execRun clearProg (buildJT clearProg).jt fuel s).mem s.cur = 0 ∧
    (∀ j, j ≠ s.cur →
      (execRun clearProg (buildJT clearProg).jt fuel s).mem j = s.mem j) ∧
    (execRun clearProg (buildJT clearProg).jt fuel s).cur = s.cur ∧
    (execRun clearProg (buildJT clearProg).jt fuel s).out = s.out ∧
    (v = 0 → (execStep clearProg (buildJT clearProg).jt s).pc = clearProg.length ∧
      (execStep clearProg (buildJT clearProg).jt s).mem = s.mem) := by
  cases v with
  | zero =>
    have hstep := clear_step_open_zero s hpc hmem
    obtain ⟨k, rfl⟩ : ∃ k, fuel = 1 + k := ⟨fuel - 1, by omega⟩
    rw [execRun_add]
    have h1 : execRun clearProg (buildJT clearProg).jt 1 s = { s with pc := 3 } := by
      rw [execRun_step_of_lt _ _ 0 s (by rw [hpc]; decide), hstep]
      rfl
    rw [h1, execRun_stall _ _ k _ (by show ¬ (3 : Nat) < clearProg.length; decide)]
    exact ⟨rfl, hmem, fun j _ => rfl, rfl, rfl,
      fun _ => ⟨by rw [hstep]; rfl, by rw [hstep]⟩⟩
  | succ w =>
    have hw : w < 256 := by omega
    have hstep1 := clear_step_open_pos s w hpc hmem
    have hstep2 : execStep clearProg (buildJT clearProg).jt { s with pc := 1 }
        = { s with
            pc := 2
            mem := setMem s.mem s.cur ((s.mem s.cur + 255) % 256) } :=
      clear_step_dec { s with pc := 1 } rfl
    obtain ⟨k, rfl⟩ : ∃ k, fuel = ((2 * w + 1) + 1 + 1) + k :=
      ⟨fuel - (2 * w + 3), by omega⟩
    rw [execRun_add]
    rw [execRun_step_of_lt _ _ _ s (by rw [hpc]; decide), hstep1]
    rw [execRun_step_of_lt _ _ _ { s with pc := 1 }
      (by show (1 : Nat) < clearProg.length; decide), hstep2]
    have hmem2 : ({ s with
        pc := 2
        mem := setMem s.mem s.cur ((s.mem s.cur + 255) % 256) } : ExecState).mem
        ({ s with
          pc := 2
          mem := setMem s.mem s.cur ((s.mem s.cur + 255) % 256) } : ExecState).cur
        = w := by
      show setMem s.mem s.cur ((s.mem s.cur + 255) % 256) s.cur = w
      rw [setMem_same, hmem]
      omega
    obtain ⟨e1, e2, e3, e4, e5⟩ := clear_loop_aux w hw { s with
      pc := 2
      mem := setMem s.mem s.cur ((s.mem s.cur + 255) % 256) } rfl hmem2
    rw [execRun_stall _ _ k _ (by rw [e1]; decide)]
    refine ⟨e1, ?_, ?_, e3, e4, fun habs => absurd habs (Nat.succ_ne_zero w)⟩
    · rw [e2 s.cur]
      show (if s.cur = s.cur then (0 : Nat)
        else setMem s.mem s.cur ((s.mem s.cur + 255) % 256) s.cur) = 0
      rw [if_pos rfl]
    · intro j hj
      rw [e2 j]
      show (if j = s.cur then (0 : Nat)
        else setMem s.mem s.cur ((s.mem s.cur + 255) % 256) j) = s.mem j
      rw [if_neg hj, setMem_other _ _ _ j hj]

theorem claim_C5_witness :
    (5 : Nat) < 256 ∧
    (execRun clearProg (buildJT clearProg).jt 12
      { pc := 0, cur := 0, mem := fun j => if j = 0 then 5 else 9
        inp := [], out := [] }).pc = clearProg.length ∧
    (execRun clearProg (buildJT clearProg).jt 12
      { pc := 0, cur := 0, mem := fun j => if j = 0 then 5 else 9
        inp := [], out := [] }).mem 0 = 0 ∧
    (execRun clearProg (buildJT clearProg).jt 12
      { pc := 0, cur := 0, mem := fun j => if j = 0 then 5 else 9
        inp := [], out := [] }).mem 1 = 9 := by
  have h := claim_C5 5
    { pc := 0, cur := 0, mem := fun j => if j = 0 then 5 else 9, inp := [], out := [] }
    (by decide) rfl (by decide) 12 (by decide)
  exact ⟨by decide, h.1, h.2.1, by rw [h.2.2.1 1 (by decide)]; rfl⟩

/-- Claim C6: a run of `k` unit `+` steps (the code's `(*cell)++` applied
`k` times) leaves the current cell at `(v + k) mod 256`, and a run of `k`
unit `-` steps leaves it at `(v - k) mod 256` (as signed remainder), i.e.
the unit-stepped wraparound arithmetic equals the single bulk addition
modulo 256. -/
theorem claim_C6 (k : Nat) (jt : Nat → Option Nat) (s : ExecState)
    (hpc : s.pc = 0) (hv : s.mem s.cur < 256) :
    (execRun (List.replicate k '+') jt k s).mem s.cur = (s.mem s.cur + k) % 256 ∧
    (execRun (List.replicate k '-') jt k s).mem s.cur
      = (s.mem s.cur + 255 * k) % 256 ∧
    (((execRun (List.replicate k '+') jt k s).mem s.cur : Int)
      = ((s.mem s.cur : Int) + k) % 256) ∧
    (((execRun (List.replicate k '-') jt k s).mem s.cur : Int)
      = ((s.mem s.cur : Int) - k) % 256) := by
  have hp := plus_run k 0 jt s hpc hv
  have hm := minus_run k 0 jt s hpc hv
  rw [Nat.zero_add] at hp hm
  refine ⟨hp.2.1, hm.2.1, ?_, ?_⟩
  · rw [hp.2.1]
    push_cast
    rfl
  · rw [hm.2.1]
    push_cast
    omega

theorem claim_C6_witness :
    (execRun (List.replicate 3 '+') (fun _ => none) 3 (initState [])).mem 0
      = (0 + 3) % 256 ∧
    (execRun (List.replicate 3 '-') (fun _ => none) 3 (initState [])).mem 0
      = (0 + 255 * 3) % 256 := by
  have h := claim_C6 3 (fun _ => none) (initState []) rfl (by decide)
  exact ⟨h.1, h.2.1⟩

/-- Claim C7: once the scan has reached the end of the buffer without
finding a command character, `lexer_peek` returns `TOKEN_EOF`, and every
later peek still returns `TOKEN_EOF` whatever peeks and advances are
interleaved; an advance in this state changes no subsequently observable
peek result. -/
theorem claim_C7 (L : Lexer) (h : AtEnd L) :
    peekT L = .TOKEN_EOF ∧
    (∀ ops : List LexOp, peekT (applyOps ops L) = .TOKEN_EOF) ∧
    (∀ ops : List LexOp,
      peekT (applyOps ops (lexerNext L)) = peekT (applyOps ops L)) := by
  refine ⟨atEnd_peekT L h, ?_, ?_⟩
  · intro ops
    exact atEnd_peekT _ (atEnd_applyOps L h ops)
  · intro ops
    rw [atEnd_peekT _ (atEnd_applyOps _ (atEnd_next L h) ops),
      atEnd_peekT _ (atEnd_applyOps L h ops)]

theorem claim_C7_witness :
    AtEnd (mkLexer [' ']) ∧
    peekT (applyOps [LexOp.nextOp, LexOp.peekOp, LexOp.nextOp] (mkLexer [' ']))
      = .TOKEN_EOF := by
  have hAE : AtEnd (mkLexer [' ']) := ⟨by decide, fun t ht => nomatch ht⟩
  exact ⟨hAE, (claim_C7 (mkLexer [' ']) hAE).2.1
    [LexOp.nextOp, LexOp.peekOp, LexOp.nextOp]⟩

/-- Claim C8: a source of only non-command bytes tokenizes to the stream
consisting of the single `TOKEN_EOF` (already the very first peek is
`TOKEN_EOF`), and `parser_parse` on it succeeds with an empty root
`AST_SEQUENCE`. -/
theorem claim_C8 (src : List Char) (h : ∀ c ∈ src, isCommand c = false) :
    streamOf (mkLexer src) = [.TOKEN_EOF] ∧
    peekT (mkLexer src) = .TOKEN_EOF ∧
    ∀ fuel, 1 ≤ fuel → parserParseF fuel (mkLexer src) = .ok (.AST_SEQUENCE []) := by
  have hfil : src.filter isCommand = [] := by
    rw [List.filter_eq_nil_iff]
    intro a ha
    rw [h a ha]
    exact Bool.false_ne_true
  have hstream : streamOf (mkLexer src) = [.TOKEN_EOF] := by
    rw [streamOf_mkLexer, hfil]
    rfl
  have hpeek : peekT (mkLexer src) = .TOKEN_EOF := peekT_of_stream _ _ [] hstream
  refine ⟨hstream, hpeek, ?_⟩
  intro fuel hfuel
  cases fuel with
  | zero => omega
  | succ f =>
    unfold parserParseF
    have hseq : parseSeqF (f + 1) (mkLexer src) []
        = .ok (.AST_SEQUENCE [], peekL (mkLexer src)) := by
      simp only [parseSeqF, peekT_def, peekL_def]
      rw [if_pos hpeek]
    rw [hseq]

theorem claim_C8_witness :
    (∀ c ∈ [' ', 'a'], isCommand c = false) ∧
    streamOf (mkLexer [' ', 'a']) = [.TOKEN_EOF] ∧
    parserParseF 1 (mkLexer [' ', 'a']) = .ok (.AST_SEQUENCE []) :=
  ⟨by decide, (claim_C8 [' ', 'a'] (by decide)).1,
    (claim_C8 [' ', 'a'] (by decide)).2.2 1 le_rfl⟩

/-- Claim C9: the parser terminates on every finite source buffer — with
fuel at least twice the lexer measure plus one, a `parse_statement` call
never exhausts fuel and on success strictly decreases the measure (strict
progress), and `parser_parse` from a fresh lexer never exhausts fuel once
the fuel is `4·length + 2`. -/
theorem claim_C9 :
    (∀ (L : Lexer) (fuel : Nat), 2 * lexMeasure L + 1 ≤ fuel →
      parseStatementF fuel L ≠ .noFuel ∧
      ∀ a L', parseStatementF fuel L = .ok (a, L') → lexMeasure L' < lexMeasure L) ∧
    (∀ (src : List Char) (fuel : Nat), 4 * src.length + 2 ≤ fuel →
      parserParseF fuel (mkLexer src) ≠ .noFuel) := by
  constructor
  · intro L fuel hf
    exact parseGo_stmt_total L fuel hf
  · intro src fuel hf
    apply parserParseF_total
    have hμ : lexMeasure (mkLexer src) = 2 * src.length := by
      simp [lexMeasure, mkLexer, cacheBit]
    omega

theorem claim_C9_witness :
    parseStatementF 10 (mkLexer ['+']) ≠ .noFuel ∧
    parserParseF 10 (mkLexer ['+']) ≠ .noFuel :=
  ⟨((claim_C9).1 (mkLexer ['+']) 10 (by decide)).1,
    (claim_C9).2 ['+'] 10 (by decide)⟩

/-- Claim C10: each interpreter step touches only its own part of the
state — `>`/`<` change only the cursor (and program counter), `+`/`-`/`,`
change only the cell under the cursor, `.` changes neither the cursor nor
any cell, and `[`/`]` change only the program counter. -/
theorem claim_C10 (prog : List Char) (jt : Nat → Option Nat) (s : ExecState) :
    (prog.getD s.pc ' ' = '>' →
      (execStep prog jt s).pc = s.pc + 1 ∧ (execStep prog jt s).cur = s.cur + 1 ∧
      (execStep prog jt s).mem = s.mem ∧ (execStep prog jt s).out = s.out ∧
      (execStep prog jt s).inp = s.inp) ∧
    (prog.getD s.pc ' ' = '<' →
      (execStep prog jt s).pc = s.pc + 1 ∧ (execStep prog jt s).cur = s.cur - 1 ∧
      (execStep prog jt s).mem = s.mem ∧ (execStep prog jt s).out = s.out ∧
      (execStep prog jt s).inp = s.inp) ∧
    (prog.getD s.pc ' ' = '+' →
      (execStep prog jt s).pc = s.pc + 1 ∧ (execStep prog jt s).cur = s.cur ∧
      (execStep prog jt s).mem s.cur = (s.mem s.cur + 1) % 256 ∧
      (∀ j, j ≠ s.cur → (execStep prog jt s).mem j = s.mem j) ∧
      (execStep prog jt s).out = s.out ∧ (execStep prog jt s).inp = s.inp) ∧
    (prog.getD s.pc ' ' = '-' →
      (execStep prog jt s).pc = s.pc + 1 ∧ (execStep prog jt s).cur = s.cur ∧
      (execStep prog jt s).mem s.cur = (s.mem s.cur + 255) % 256 ∧
      (∀ j, j ≠ s.cur → (execStep prog jt s).mem j = s.mem j) ∧
      (execStep prog jt s).out = s.out ∧ (execStep prog jt s).inp = s.inp) ∧
    (prog.getD s.pc ' ' = ',' →
      (execStep prog jt s).pc = s.pc + 1 ∧ (execStep prog jt s).cur = s.cur ∧
      (∀ j, j ≠ s.cur → (execStep prog jt s).mem j = s.mem j) ∧
      (execStep prog jt s).out = s.out) ∧
    (prog.getD s.pc ' ' = '.' →
      (execStep prog jt s).pc = s.pc + 1 ∧ (execStep prog jt s).cur = s.cur ∧
      (execStep prog jt s).mem = s.mem ∧ (execStep prog jt s).inp = s.inp) ∧
    (prog.getD s.pc ' ' = '[' →
      (execStep prog jt s).cur = s.cur ∧ (execStep prog jt s).mem = s.mem ∧
      (execStep prog jt s).out = s.out ∧ (execStep prog jt s).inp = s.inp) ∧
    (prog.getD s.pc ' ' = ']' →
      (execStep prog jt s).cur = s.cur ∧ (execStep prog jt s).mem = s.mem ∧
      (execStep prog jt s).out = s.out ∧ (execStep prog jt s).inp = s.inp) := by
  refine ⟨?_, ?_, ?_, ?_, ?_, ?_, ?_, ?_⟩ <;> intro h <;>
    rw [List.getD_eq_getElem?_getD] at h
  · refine ⟨?_, ?_, ?_, ?_, ?_⟩ <;> simp [execStep, h]
  · refine ⟨?_, ?_, ?_, ?_, ?_⟩ <;> simp [execStep, h]
  · exact ⟨by simp [execStep, h], by simp [execStep, h],
      by simp [execStep, h, setMem],
      fun j hj => by simp [execStep, h, setMem, hj],
      by simp [execStep, h], by simp [execStep, h]⟩
  · exact ⟨by simp [execStep, h], by simp [execStep, h],
      by simp [execStep, h, setMem],
      fun j hj => by simp [execStep, h, setMem, hj],
      by simp [execStep, h], by simp [execStep, h]⟩
  · exact ⟨by cases hinp : s.inp <;> simp [execStep, h, hinp],
      by cases hinp : s.inp <;> simp [execStep, h, hinp],
      fun j hj => by cases hinp : s.inp <;> simp [execStep, h, hinp, setMem, hj],
      by cases hinp : s.inp <;> simp [execStep, h, hinp]⟩
  · refine ⟨?_, ?_, ?_, ?_⟩ <;> simp [execStep, h]
  · refine ⟨?_, ?_, ?_, ?_⟩ <;> simp [execStep, h]
  · refine ⟨?_, ?_, ?_, ?_⟩ <;> simp [execStep, h]

theorem claim_C10_witness :
    (['>'].getD (initState []).pc ' ' = '>') ∧
    (execStep ['>'] (fun _ => none) (initState [])).cur = (initState []).cur + 1 ∧
    (execStep ['>'] (fun _ => none) (initState [])).mem = (initState []).mem := by
  have h := (claim_C10 ['>'] (fun _ => none) (initState [])).1 (by decide)
  exact ⟨by decide, h.2.1, h.2.2.1⟩

end Brainfuck
